import Mathlib

/-!
# hash_table: a chained hash table with pluggable policies

A shallow embedding of `hash.c` / `hash.h`.

* A pointer is an `Option`: `none` is `NULL`.
* The heap of chain links is abstracted: a `HashmapNode *` is the chain it heads, the
  list of nodes reached by following `next`; `NULL` is the empty chain.
* The bucket array `HashmapNode **table` is a list of chains, `none` when the pointer is
  `NULL`.
* The functions take `const HashTable *` and write through `table`: here they return the
  table after the call.
* An operation returns `none` where the C code has undefined behaviour the embedding
  tracks: dereferencing a `NULL` bucket array, indexing the bucket array out of range,
  overflowing the `int` loop counter.
* `malloc` can fail: every allocation takes a flag saying whether it succeeds.
* A policy is a mathematical function of its arguments.  The address policy receives the
  table descriptor; the embedding hands it the `size` field, the one field the default
  policy reads, so an address policy is a function of `(size, key)`.
-/

namespace Hash

/-- Pointer values: `none` is the `NULL` pointer. -/
abbrev Ptr (α : Type) := Option α

/-! ## Return codes (hash.h) -/

def HASH_ERROR : Int := -1
def HASH_INVALID_SIZE : Int := -2
def HASH_CANT_ALOC_MEM : Int := -3
def HASH_KEY_ALREADY_ENTERED : Int := -4
def HASH_ENTRY_NOT_FOUND : Int := -5
def HASH_SUCCESS : Int := 0
def HASH_ENTRY_DELETED : Int := 1

/-- Largest value of a 32-bit `int`. -/
def INT_MAX : Nat := 2147483647

/-- Number of values of a 32-bit `unsigned int`. -/
def UINT_RANGE : Nat := 4294967296

/-! ## Data model (hash.h) -/

/-- The record `struct s_Node`: the references to the key and to the data. -/
structure Node (K V : Type) where
  key : Ptr K
  data : Ptr V
  deriving DecidableEq, Repr

/-- The link `struct s_HashmapNode` seen from a pointer to it: the chain of nodes reached
through `next`, the pointed link first; `[]` is `NULL`. -/
abbrev HashmapNode (K V : Type) := List (Node K V)

/-- The type `Hash_address`: from the table (its `size`) and a key to a bucket index. -/
abbrev Hash_address (K : Type) := Nat → Ptr K → Nat

/-- The type `Hash_key_compare`: returns 0 when the two keys are equal. -/
abbrev Hash_key_compare (K : Type) := Ptr K → Ptr K → Int

/-- The type `Hash_node_delete`: run on a node when it is deleted. -/
abbrev Hash_node_delete (K V : Type) := Node K V → Int

/-- The descriptor `struct s_HashTable`. -/
structure HashTable (K V : Type) where
  table : Ptr (List (HashmapNode K V))
  hash_address : Hash_address K
  hash_compare : Hash_key_compare K
  hash_node_delete : Hash_node_delete K V
  size : Nat

variable {K V : Type}

/-! ## Default policies (hash.c, lines 3-24)

The defaults read the key as a C string.  `txt p` gives the `char` values stored from the
address `p` on, each as the `int` it promotes to; the string ends at the first 0 (or at
the end of the list).  Applying `strlen` or `strcmp` to `NULL` is undefined in C: the
embedding reads a null key as the empty string, and what is stated below of a null key
concerns policies that accept one. -/

/-- The characters before the terminating 0. -/
def c_string (s : List Int) : List Int := s.takeWhile (fun c => decide (c ≠ 0))

/-- The C library function `strlen`. -/
def strlen (s : List Int) : Nat := (c_string s).length

/-- Conversion of an unsigned value to a 32-bit `int` (two's complement). -/
def to_int (n : Nat) : Int :=
  if n % UINT_RANGE ≤ INT_MAX then ((n % UINT_RANGE : Nat) : Int)
  else ((n % UINT_RANGE : Nat) : Int) - (UINT_RANGE : Int)

/-- Conversion of an `int` to `unsigned int`. -/
def to_unsigned (c : Int) : Nat := (c % (UINT_RANGE : Int)).toNat

/-- The characters a key pointer addresses, as `(char *) key`. -/
def key_text (txt : K → List Int) (key : Ptr K) : List Int :=
  match key with
  | some p => txt p
  | none => []

/-- The function `default_hash_addr` (hash.c:3): `address` starts at 1, every character
within `key_length` updates it to `((address * key_txt[i]) % size) + 1` in `unsigned int`
arithmetic, and the result is `address - 1`. -/
def default_hash_addr (txt : K → List Int) (size : Nat) (key : Ptr K) : Nat :=
  let key_txt := key_text txt key
  let key_length : Int := to_int (strlen key_txt)
  let address := (List.range key_length.toNat).foldl
    (fun address i =>
      (((address * to_unsigned (key_txt.getD i 0)) % UINT_RANGE) % size + 1) % UINT_RANGE) 1
  (address + UINT_RANGE - 1) % UINT_RANGE

/-- The loop of `strcmp` on two strings cut at their terminator.  The result has the sign
of the difference of the first two characters that differ, compared as `unsigned char`;
the C standard fixes the sign only, and here a negative result is -1 and a positive one
is 1. -/
def strcmp_loop : List Int → List Int → Int
  | [], [] => 0
  | [], _ :: _ => -1
  | _ :: _, [] => 1
  | a :: s, b :: t =>
    if a = b then strcmp_loop s t
    else if a % 256 < b % 256 then -1
    else 1

/-- The C library function `strcmp`. -/
def strcmp (a b : List Int) : Int := strcmp_loop (c_string a) (c_string b)

/-- The function `default_compare` (hash.c:18). -/
def default_compare (txt : K → List Int) (a b : Ptr K) : Int :=
  strcmp (key_text txt a) (key_text txt b)

/-- The function `default_delete_node` (hash.c:22). -/
def default_delete_node (_node : Node K V) : Int := HASH_SUCCESS

/-! ## ht_create (hash.c:26) -/

/-- The function `ht_create`.  `malloc_ok` tells whether the allocation of the bucket array
succeeds.  The store `hash_table->table = malloc(...)` comes before the test of its
result, so a failed allocation leaves `NULL` in the descriptor.  The loop counter `i` is
an `int`: its last increment overflows when `size_table` exceeds `INT_MAX`. -/
def ht_create (txt : K → List Int) (hash_table : HashTable K V) (size_table : Nat)
    (hash_address : Ptr (Hash_address K)) (hash_compare : Ptr (Hash_key_compare K))
    (hash_node_delete : Ptr (Hash_node_delete K V)) (malloc_ok : Bool) :
    Option (Int × HashTable K V) :=
  if size_table < 1 then some (HASH_INVALID_SIZE, hash_table)
  else if malloc_ok = false then some (HASH_CANT_ALOC_MEM, { hash_table with table := none })
  else if INT_MAX < size_table then none
  else some (HASH_SUCCESS,
    { table := some (List.replicate size_table []),
      size := size_table,
      hash_compare := match hash_compare with
        | none => default_compare txt
        | some f => f,
      hash_address := match hash_address with
        | none => default_hash_addr txt
        | some f => f,
      hash_node_delete := match hash_node_delete with
        | none => default_delete_node
        | some f => f })

/-! ## ht_get_node (hash.c:50) -/

/-- The `for` loop of `ht_get_node` from `entry` on: the node of the first link whose key
compares equal to `key`, `NULL` when the chain is exhausted. -/
def get_node_loop (hash_compare : Hash_key_compare K) (key : Ptr K) :
    HashmapNode K V → Ptr (Node K V)
  | [] => none
  | node :: next =>
    if hash_compare node.key key = 0 then some node
    else get_node_loop hash_compare key next

/-- The function `ht_get_node`. -/
def ht_get_node (hash_table : HashTable K V) (key : Ptr K) : Option (Ptr (Node K V)) :=
  match hash_table.table with
  | none => none
  | some table =>
    let address := hash_table.hash_address hash_table.size key
    match table[address]? with
    | none => none
    | some entry => some (get_node_loop hash_table.hash_compare key entry)

/-! ## ht_new_entry and ht_insert (hash.c:67, hash.c:93) -/

/-- The function `ht_new_entry`: a fresh link whose `next` is `NULL`, or `NULL` when the key
or the data is `NULL` or one of the two allocations fails. -/
def ht_new_entry (key : Ptr K) (data : Ptr V) (node_ok link_ok : Bool) :
    Ptr (HashmapNode K V) :=
  if key.isNone || data.isNone then none
  else if node_ok = false then none
  else if link_ok = false then none
  else some [{ key := key, data := data }]

/-- The `while` loop of `ht_insert` from `cur_node` on: `true` when it leaves through
`return HASH_KEY_ALREADY_ENTERED`. -/
def insert_loop (hash_compare : Hash_key_compare K) (key : Ptr K) :
    HashmapNode K V → Bool
  | [] => false
  | cur_node :: next =>
    if hash_compare cur_node.key key = 0 then true
    else insert_loop hash_compare key next

/-- The store `previous_node->next = new_node`, where `previous_node` is the last link the
loop of `ht_insert` visited: the chain with `new_node` in place of the `NULL` that ends it. -/
def set_last_next : HashmapNode K V → HashmapNode K V → HashmapNode K V
  | [], new_node => new_node
  | node :: next, new_node => node :: set_last_next next new_node

/-- The function `ht_insert`.  `node_ok` and `link_ok` tell whether the two allocations of
`ht_new_entry` succeed. -/
def ht_insert (hash_table : HashTable K V) (key : Ptr K) (data : Ptr V)
    (node_ok link_ok : Bool) : Option (Int × HashTable K V) :=
  match hash_table.table with
  | none => none
  | some table =>
    let address := hash_table.hash_address hash_table.size key
    match table[address]? with
    | none => none
    | some first_node =>
      if insert_loop hash_table.hash_compare key first_node = true then
        some (HASH_KEY_ALREADY_ENTERED, hash_table)
      else
        match ht_new_entry key data node_ok link_ok with
        | none => some (HASH_CANT_ALOC_MEM, hash_table)
        | some new_node =>
          match first_node with
          | [] =>
            some (HASH_SUCCESS, { hash_table with table := some (table.set address new_node) })
          | _ :: _ =>
            some (HASH_SUCCESS, { hash_table with
              table := some (table.set address (set_last_next first_node new_node)) })

/-! ## ht_delete_entry and ht_delete (hash.c:149, hash.c:131)

Both return, besides their result, the nodes `hash_node_delete` was called on, in call
order. -/

/-- The `for` loop of `ht_delete_entry` from `cur_node` on, once `cur_node` is past
`first_node`: `none` when the chain is exhausted, otherwise the matched node and the new
value of `previous_node->next`. -/
def delete_loop (hash_compare : Hash_key_compare K) (key : Ptr K) :
    HashmapNode K V → Option (Node K V × HashmapNode K V)
  | [] => none
  | cur_node :: next =>
    if hash_compare cur_node.key key = 0 then
      match next with
      | _ :: _ => some (cur_node, next)
      | [] => some (cur_node, [])
    else
      match delete_loop hash_compare key next with
      | none => none
      | some (found, rest) => some (found, cur_node :: rest)

/-- The function `ht_delete_entry`. -/
def ht_delete_entry (hash_table : HashTable K V) (key : Ptr K) :
    Option (Int × HashTable K V × List (Node K V)) :=
  match hash_table.table with
  | none => none
  | some table =>
    let address := hash_table.hash_address hash_table.size key
    match table[address]? with
    | none => none
    | some first_node =>
      match first_node with
      | [] => some (HASH_ENTRY_NOT_FOUND, hash_table, [])
      | cur_node :: next =>
        if hash_table.hash_compare cur_node.key key = 0 then
          match next with
          | _ :: _ =>
            some (HASH_ENTRY_DELETED,
              { hash_table with table := some (table.set address next) }, [cur_node])
          | [] =>
            some (HASH_ENTRY_DELETED,
              { hash_table with table := some (table.set address []) }, [cur_node])
        else
          match delete_loop hash_table.hash_compare key next with
          | none => some (HASH_ENTRY_NOT_FOUND, hash_table, [])
          | some (found, rest) =>
            some (HASH_ENTRY_DELETED,
              { hash_table with table := some (table.set address (cur_node :: rest)) },
              [found])

/-- The function `ht_delete`: the nodes handed to `hash_node_delete`, bucket after bucket
and each chain from its head.  The bucket array is released, so no table is returned. -/
def ht_delete (hash_table : HashTable K V) : Option (List (Node K V)) :=
  match hash_table.table with
  | none => none
  | some table =>
    if table.length < hash_table.size then none
    else if INT_MAX < hash_table.size then none
    else some ((table.take hash_table.size).flatten)

/-! ## Observations on a table and call sequences -/

/-- The chain the operations walk for `key`: `table[hash_address(table, key)]`, `none`
when that access is undefined. -/
def bucket (hash_table : HashTable K V) (key : Ptr K) : Option (HashmapNode K V) :=
  match hash_table.table with
  | none => none
  | some table => table[hash_table.hash_address hash_table.size key]?

/-- All the live entries of the table, bucket after bucket. -/
def entries (hash_table : HashTable K V) : List (Node K V) :=
  match hash_table.table with
  | none => []
  | some table => table.flatten

/-- The comparator tells the keys of any two distinct live entries apart. -/
def UniqueKeys (hash_table : HashTable K V) : Prop :=
  (entries hash_table).Pairwise
    (fun a b => hash_table.hash_compare a.key b.key ≠ 0 ∧
      hash_table.hash_compare b.key a.key ≠ 0)

/-- A mutating call on a table, with the allocation flags of an insertion. -/
inductive Op (K V : Type) where
  | insert (key : Ptr K) (data : Ptr V) (node_ok link_ok : Bool)
  | delete_entry (key : Ptr K)

/-- The table after one call, whatever the call returned. -/
def apply_op (hash_table : HashTable K V) : Op K V → Option (HashTable K V)
  | Op.insert key data node_ok link_ok =>
    (ht_insert hash_table key data node_ok link_ok).map (fun r => r.2)
  | Op.delete_entry key => (ht_delete_entry hash_table key).map (fun r => r.2.1)

/-- The table after a sequence of calls. -/
def apply_ops (hash_table : HashTable K V) : List (Op K V) → Option (HashTable K V)
  | [] => some hash_table
  | op :: ops =>
    match apply_op hash_table op with
    | none => none
    | some next_table => apply_ops next_table ops

/-- The tables reached from a successful `ht_create` by `ht_insert` and `ht_delete_entry`
calls. -/
def Reachable (hash_table : HashTable K V) : Prop :=
  ∃ (txt : K → List Int) (descriptor : HashTable K V) (size_table : Nat)
    (hash_address : Ptr (Hash_address K)) (hash_compare : Ptr (Hash_key_compare K))
    (hash_node_delete : Ptr (Hash_node_delete K V)) (malloc_ok : Bool)
    (created : HashTable K V) (ops : List (Op K V)),
    ht_create txt descriptor size_table hash_address hash_compare hash_node_delete malloc_ok
      = some (HASH_SUCCESS, created) ∧
    apply_ops created ops = some hash_table

/-- The test the three loops apply to a link: its key compares equal to `key`. -/
def matches_key (hash_compare : Hash_key_compare K) (key : Ptr K) (node : Node K V) : Bool :=
  decide (hash_compare node.key key = 0)

/-- The condition on the chain of bucket `i`: the comparator tells an earlier key from a
later one, and every key has address `i`. -/
def BucketOk (hash_table : HashTable K V) (i : Nat) (chain : HashmapNode K V) : Prop :=
  chain.Pairwise (fun a b => hash_table.hash_compare a.key b.key ≠ 0) ∧
  ∀ n ∈ chain, hash_table.hash_address hash_table.size n.key = i

/-- The invariant of the reachable tables: `size` buckets, each satisfying `BucketOk`. -/
def Inv (hash_table : HashTable K V) : Prop :=
  ∃ table, hash_table.table = some table ∧ table.length = hash_table.size ∧
    ∀ i chain, table[i]? = some chain → BucketOk hash_table i chain

/-! ## Sample tables (keys and data of `main.c`) -/

/-- C strings are their characters. -/
abbrev Str := List Int

/-- The key "hg456h". -/
def key_hg456h : Str := [104, 103, 52, 53, 54, 104]
/-- The key "7dfgsd89". -/
def key_7dfgsd89 : Str := [55, 100, 102, 103, 115, 100, 56, 57]
/-- The key "i46fh5LL". -/
def key_i46fh5LL : Str := [105, 52, 54, 102, 104, 53, 76, 76]
/-- The data "hh". -/
def data_hh : Str := [104, 104]
/-- The data "ee77777". -/
def data_ee77777 : Str := [101, 101, 55, 55, 55, 55, 55]
/-- The data "ii". -/
def data_ii : Str := [105, 105]

/-- A table of 23 buckets with the default policies, holding the given buckets. -/
def sample (table : List (HashmapNode Str Str)) : HashTable Str Str :=
  { table := some table,
    hash_address := default_hash_addr id,
    hash_compare := default_compare id,
    hash_node_delete := default_delete_node,
    size := 23 }

/-- The table `ht_create(&hash_table, 23, NULL, NULL, NULL)` yields. -/
def sample_empty : HashTable Str Str := sample (List.replicate 23 [])

/-- The sample table after `ht_insert(&hash_table, "hg456h", "hh")`. -/
def sample_one : HashTable Str Str :=
  sample ((List.replicate 23 []).set 17 [{ key := some key_hg456h, data := some data_hh }])

/-- The sample table after the insertions of "hg456h" and "7dfgsd89". -/
def sample_two : HashTable Str Str :=
  sample (((List.replicate 23 []).set 17
    [{ key := some key_hg456h, data := some data_hh }]).set 12
    [{ key := some key_7dfgsd89, data := some data_ee77777 }])

/-- The table `sample_two` after `ht_delete_entry(&hash_table, "hg456h")`. -/
def sample_two_deleted : HashTable Str Str :=
  sample ((((List.replicate 23 []).set 17
    [{ key := some key_hg456h, data := some data_hh }]).set 12
    [{ key := some key_7dfgsd89, data := some data_ee77777 }]).set 17 [])

/-- A comparator on `int` keys with a tolerance: two keys are reported equal when they
differ by at most 1.  It is symmetric but not transitive. -/
def near_compare : Hash_key_compare Nat := fun a b =>
  match a, b with
  | some x, some y => if x ≤ y + 1 ∧ y ≤ x + 1 then 0 else 1
  | _, _ => 1

/-- A table of one bucket with the comparator `near_compare`, holding the given chain. -/
def near_table (chain : HashmapNode Nat Nat) : HashTable Nat Nat :=
  { table := some [chain],
    hash_address := fun _ _ => 0,
    hash_compare := near_compare,
    hash_node_delete := default_delete_node,
    size := 1 }

/-! ## The address recurrence of the specification -/

/-- The recurrence the specification gives for the default address, computed over the
integers: a running value starts at 1, every character code `c` updates it to
`((value * c) mod size) + 1`, and the address is the final value minus 1. -/
def spec_hash_addr (size : Nat) (codes : List Int) : Int :=
  codes.foldl (fun value c => (value * c) % (size : Int) + 1) 1 - 1

/-- The same recurrence in `unsigned int` arithmetic: the character is converted to
`unsigned int` and the product is reduced modulo 2^32 before it is reduced modulo `size`. -/
def wrapped_hash_addr (size : Nat) (codes : List Int) : Nat :=
  codes.foldl (fun value c => ((value * to_unsigned c) % UINT_RANGE) % size + 1) 1 - 1

/-- The key "zzzzzz". -/
def key_zzzzzz : Str := [122, 122, 122, 122, 122, 122]

/-- The sample table after the insertions of "hg456h", "7dfgsd89" and "i46fh5LL". -/
def sample_three : HashTable Str Str :=
  sample ((((List.replicate 23 []).set 17
    [{ key := some key_hg456h, data := some data_hh }]).set 12
    [{ key := some key_7dfgsd89, data := some data_ee77777 }]).set 5
    [{ key := some key_i46fh5LL, data := some data_ii }])

/-- The table `sample_three` after `ht_delete_entry(&hash_table, "hg456h")`. -/
def sample_three_deleted : HashTable Str Str :=
  sample (((((List.replicate 23 []).set 17
    [{ key := some key_hg456h, data := some data_hh }]).set 12
    [{ key := some key_7dfgsd89, data := some data_ee77777 }]).set 5
    [{ key := some key_i46fh5LL, data := some data_ii }]).set 17 [])

/-! ## Calls between creation and teardown, with the cleanup log -/

/-- The number of buckets of the table, `none` when the bucket array pointer is `NULL`. -/
def bucket_count (hash_table : HashTable K V) : Option Nat :=
  match hash_table.table with
  | none => none
  | some table => some table.length

/-- A call of `ht_insert` (with its allocation flags), `ht_get_node` or `ht_delete_entry`. -/
inductive Call (K V : Type) where
  | insert (key : Ptr K) (data : Ptr V) (node_ok link_ok : Bool)
  | get_node (key : Ptr K)
  | delete_entry (key : Ptr K)

/-- The table after one call, with the nodes the call handed to `hash_node_delete`.  The
bodies of `ht_insert` and `ht_new_entry` (hash.c:67-129) and of `ht_get_node`
(hash.c:50-65) hold no call of `hash_node_delete`, and `ht_get_node` stores nothing. -/
def apply_call (hash_table : HashTable K V) :
    Call K V → Option (HashTable K V × List (Node K V))
  | Call.insert key data node_ok link_ok =>
    (ht_insert hash_table key data node_ok link_ok).map (fun r => (r.2, []))
  | Call.get_node key => (ht_get_node hash_table key).map (fun _ => (hash_table, []))
  | Call.delete_entry key => (ht_delete_entry hash_table key).map (fun r => (r.2.1, r.2.2))

/-- The table after a sequence of calls, with the nodes handed to `hash_node_delete`, in
call order. -/
def apply_calls (hash_table : HashTable K V) :
    List (Call K V) → Option (HashTable K V × List (Node K V))
  | [] => some (hash_table, [])
  | call :: calls =>
    match apply_call hash_table call with
    | none => none
    | some (next_table, log) =>
      match apply_calls next_table calls with
      | none => none
      | some (last_table, more) => some (last_table, log ++ more)

/-- The policy `ht_create` binds for an argument: `(given == NULL) ? fallback : given`. -/
def bound_policy {α : Type} (given : Ptr α) (fallback : α) : α :=
  match given with
  | none => fallback
  | some f => f

/-- Every live entry sits in the bucket of its address: an entry in the chain of bucket `i`
has `hash_address(table, entry_key) = i`. -/
def Placed (hash_table : HashTable K V) : Prop :=
  ∀ table, hash_table.table = some table → ∀ i chain, table[i]? = some chain →
    ∀ n ∈ chain, hash_table.hash_address hash_table.size n.key = i

/-! ## The loops on a chain -/

theorem set_last_next_eq_append (chain new_node : HashmapNode K V) :
    set_last_next chain new_node = chain ++ new_node := by
  induction chain with
  | nil => rfl
  | cons node next ih => simp [set_last_next, ih]

theorem insert_loop_eq_false (cmp : Hash_key_compare K) (key : Ptr K)
    (chain : HashmapNode K V) :
    insert_loop cmp key chain = false ↔ ∀ n ∈ chain, cmp n.key key ≠ 0 := by
  induction chain with
  | nil => simp [insert_loop]
  | cons node next ih =>
    by_cases h : cmp node.key key = 0 <;> simp [insert_loop, h, ih]

theorem insert_loop_eq_true (cmp : Hash_key_compare K) (key : Ptr K)
    (chain : HashmapNode K V) :
    insert_loop cmp key chain = true ↔ ∃ n ∈ chain, cmp n.key key = 0 := by
  induction chain with
  | nil => simp [insert_loop]
  | cons node next ih =>
    by_cases h : cmp node.key key = 0 <;> simp [insert_loop, h, ih]

theorem get_node_loop_eq_none (cmp : Hash_key_compare K) (key : Ptr K)
    (chain : HashmapNode K V) :
    get_node_loop cmp key chain = none ↔ ∀ n ∈ chain, cmp n.key key ≠ 0 := by
  induction chain with
  | nil => simp [get_node_loop]
  | cons node next ih =>
    by_cases h : cmp node.key key = 0 <;> simp [get_node_loop, h, ih]

theorem get_node_loop_append (cmp : Hash_key_compare K) (key : Ptr K)
    (pre rest : HashmapNode K V) (h : ∀ n ∈ pre, cmp n.key key ≠ 0) :
    get_node_loop cmp key (pre ++ rest) = get_node_loop cmp key rest := by
  induction pre with
  | nil => rfl
  | cons node next ih =>
    have h1 : cmp node.key key ≠ 0 := h node (by simp)
    have h2 : ∀ n ∈ next, cmp n.key key ≠ 0 := fun n hn => h n (by simp [hn])
    simp [get_node_loop, h1, ih h2]

theorem get_node_loop_eq_some (cmp : Hash_key_compare K) (key : Ptr K)
    (chain : HashmapNode K V) (e : Node K V) :
    get_node_loop cmp key chain = some e ↔
      ∃ pre post, chain = pre ++ e :: post ∧ (∀ n ∈ pre, cmp n.key key ≠ 0) ∧
        cmp e.key key = 0 := by
  induction chain with
  | nil => simp [get_node_loop]
  | cons node next ih =>
    by_cases h : cmp node.key key = 0
    · simp only [get_node_loop, h, if_true, Option.some.injEq]
      constructor
      · rintro rfl
        exact ⟨[], next, rfl, by simp, h⟩
      · rintro ⟨pre, post, hc, hpre, _⟩
        cases pre with
        | nil => simp at hc; exact hc.1
        | cons p pre =>
          simp at hc
          exact absurd h (hc.1 ▸ hpre p (by simp))
    · simp only [get_node_loop, h, if_false, ih]
      constructor
      · rintro ⟨pre, post, hc, hpre, he⟩
        refine ⟨node :: pre, post, by simp [hc], ?_, he⟩
        intro n hn
        rcases List.mem_cons.1 hn with rfl | hn
        · exact h
        · exact hpre n hn
      · rintro ⟨pre, post, hc, hpre, he⟩
        cases pre with
        | nil =>
          simp at hc
          exact absurd (hc.1 ▸ he) h
        | cons p pre =>
          simp at hc
          exact ⟨pre, post, hc.2, fun n hn => hpre n (by simp [hn]), he⟩

/-! ## The operations on a table whose bucket access is defined -/

theorem bucket_eq_some (t : HashTable K V) (key : Ptr K) (chain : HashmapNode K V) :
    bucket t key = some chain ↔
      ∃ table, t.table = some table ∧ table[t.hash_address t.size key]? = some chain := by
  unfold bucket
  cases h : t.table with
  | none => simp
  | some table => simp

theorem ht_get_node_eq (t : HashTable K V) (key : Ptr K) :
    ht_get_node t key = (bucket t key).map (get_node_loop t.hash_compare key) := by
  unfold ht_get_node bucket
  cases t.table with
  | none => rfl
  | some table =>
    simp only
    cases table[t.hash_address t.size key]? <;> rfl

theorem ht_new_entry_eq_some (key : Ptr K) (data : Ptr V) (node_ok link_ok : Bool)
    (new_node : HashmapNode K V) :
    ht_new_entry key data node_ok link_ok = some new_node ↔
      key ≠ none ∧ data ≠ none ∧ node_ok = true ∧ link_ok = true ∧
        new_node = [{ key := key, data := data }] := by
  unfold ht_new_entry
  cases key <;> cases data <;> cases node_ok <;> cases link_ok <;> simp [eq_comm]

theorem ht_insert_eq (t : HashTable K V) (key : Ptr K) (data : Ptr V)
    (node_ok link_ok : Bool) (table : List (HashmapNode K V)) (chain : HashmapNode K V)
    (ht : t.table = some table) (hc : table[t.hash_address t.size key]? = some chain) :
    ht_insert t key data node_ok link_ok =
      if insert_loop t.hash_compare key chain = true then
        some (HASH_KEY_ALREADY_ENTERED, t)
      else
        match ht_new_entry key data node_ok link_ok with
        | none => some (HASH_CANT_ALOC_MEM, t)
        | some new_node =>
          some (HASH_SUCCESS, { t with
            table := some (table.set (t.hash_address t.size key) (chain ++ new_node)) }) := by
  unfold ht_insert
  simp only [ht, hc]
  split
  · rfl
  · cases ht_new_entry key data node_ok link_ok with
    | none => rfl
    | some new_node =>
      cases chain with
      | nil => simp
      | cons node next => simp [set_last_next_eq_append]

theorem ht_insert_defined (t t' : HashTable K V) (key : Ptr K) (data : Ptr V)
    (node_ok link_ok : Bool) (r : Int)
    (h : ht_insert t key data node_ok link_ok = some (r, t')) :
    ∃ table chain, t.table = some table ∧
      table[t.hash_address t.size key]? = some chain := by
  unfold ht_insert at h
  cases ht : t.table with
  | none => simp [ht] at h
  | some table =>
    cases hc : table[t.hash_address t.size key]? with
    | none => simp [ht, hc] at h
    | some chain => exact ⟨table, chain, rfl, hc⟩

theorem ht_insert_success (t t' : HashTable K V) (key : Ptr K) (data : Ptr V)
    (node_ok link_ok : Bool)
    (h : ht_insert t key data node_ok link_ok = some (HASH_SUCCESS, t')) :
    ∃ table chain, t.table = some table ∧
      table[t.hash_address t.size key]? = some chain ∧
      (∀ n ∈ chain, t.hash_compare n.key key ≠ 0) ∧
      key ≠ none ∧ data ≠ none ∧ node_ok = true ∧ link_ok = true ∧
      t' = { t with table := some (table.set (t.hash_address t.size key)
        (chain ++ [{ key := key, data := data }])) } := by
  obtain ⟨table, chain, ht, hc⟩ := ht_insert_defined t t' key data node_ok link_ok _ h
  rw [ht_insert_eq t key data node_ok link_ok table chain ht hc] at h
  refine ⟨table, chain, ht, hc, ?_⟩
  by_cases hl : insert_loop t.hash_compare key chain = true
  · simp [hl, HASH_KEY_ALREADY_ENTERED, HASH_SUCCESS] at h
  · have hl' : insert_loop t.hash_compare key chain = false := by simpa using hl
    rw [if_neg hl] at h
    cases hn : ht_new_entry key data node_ok link_ok with
    | none => simp [hn, HASH_CANT_ALOC_MEM, HASH_SUCCESS] at h
    | some new_node =>
      obtain ⟨h1, h2, h3, h4, h5⟩ :=
        (ht_new_entry_eq_some key data node_ok link_ok new_node).1 hn
      simp only [hn, Option.some.injEq, Prod.mk.injEq, true_and] at h
      exact ⟨(insert_loop_eq_false _ _ _).1 hl', h1, h2, h3, h4, by rw [← h, h5]⟩

/-! ## C1: round trip -/

/-- C1: when `ht_insert(table, k, v)` with a non-null key `k` and non-null data `v` returns
`HASH_SUCCESS` on a table whose comparator reports `k` equal to itself, the
`ht_get_node(table, k)` that follows returns a non-null node whose key is `k` and whose
data is `v`. -/
theorem insert_then_get (t t' : HashTable K V) (k : K) (v : V) (node_ok link_ok : Bool)
    (hrefl : t.hash_compare (some k) (some k) = 0)
    (hins : ht_insert t (some k) (some v) node_ok link_ok = some (HASH_SUCCESS, t')) :
    ht_get_node t' (some k) = some (some { key := some k, data := some v }) := by
  obtain ⟨table, chain, _, hc, hno, _, _, _, _, rfl⟩ :=
    ht_insert_success t t' (some k) (some v) node_ok link_ok hins
  have hlt : t.hash_address t.size (some k) < table.length := by
    by_contra hge
    rw [List.getElem?_eq_none (Nat.le_of_not_lt hge)] at hc
    cases hc
  rw [ht_get_node_eq]
  simp only [bucket, List.getElem?_set_self hlt, Option.map_some']
  rw [get_node_loop_append _ _ _ _ hno]
  simp [get_node_loop, hrefl]

/-- Witness of C1: the first insertion of `main.c` on the table of 23 buckets with the
default policies. -/
theorem insert_then_get_witness :
    sample_empty.hash_compare (some key_hg456h) (some key_hg456h) = 0 ∧
    ht_insert sample_empty (some key_hg456h) (some data_hh) true true
      = some (HASH_SUCCESS, sample_one) ∧
    ht_get_node sample_one (some key_hg456h)
      = some (some { key := some key_hg456h, data := some data_hh }) :=
  have hrefl : sample_empty.hash_compare (some key_hg456h) (some key_hg456h) = 0 := by
    decide
  have hins : ht_insert sample_empty (some key_hg456h) (some data_hh) true true
      = some (HASH_SUCCESS, sample_one) := by
    have ha : sample_empty.hash_address sample_empty.size (some key_hg456h) = 17 := by
      decide
    unfold ht_insert
    simp only [ha]
    rfl
  ⟨hrefl, hins, insert_then_get sample_empty sample_one key_hg456h data_hh true true hrefl hins⟩

/-! ## C2: duplicate rejection -/

/-- C2: on a table whose bucket access for `k` is defined, `ht_insert(table, k, v2)` returns
a result, and it returns `HASH_KEY_ALREADY_ENTERED` exactly when `ht_get_node(table, k)`
before the call is non-null, that is when an entry of `k`'s bucket compares equal to `k`;
the table is then unchanged and `ht_get_node(table, k)` after the call returns the same
entry, whatever `v2` is. -/
theorem insert_duplicate_rejected (t : HashTable K V) (k : Ptr K) (v2 : Ptr V)
    (node_ok link_ok : Bool) (chain : HashmapNode K V) (hb : bucket t k = some chain) :
    ∃ r t', ht_insert t k v2 node_ok link_ok = some (r, t') ∧
      (r = HASH_KEY_ALREADY_ENTERED ↔ ∃ e, ht_get_node t k = some (some e)) ∧
      (r = HASH_KEY_ALREADY_ENTERED ↔ ∃ e ∈ chain, t.hash_compare e.key k = 0) ∧
      (r = HASH_KEY_ALREADY_ENTERED → t' = t ∧ ht_get_node t' k = ht_get_node t k) := by
  obtain ⟨table, ht, hc⟩ := (bucket_eq_some t k chain).1 hb
  have hget : ∀ e, ht_get_node t k = some (some e) ↔
      get_node_loop t.hash_compare k chain = some e := by
    intro e
    rw [ht_get_node_eq, hb]
    simp
  rw [ht_insert_eq t k v2 node_ok link_ok table chain ht hc]
  by_cases hl : insert_loop t.hash_compare k chain = true
  · obtain ⟨e, he, hz⟩ := (insert_loop_eq_true _ _ _).1 hl
    have hsome : ∃ e, get_node_loop t.hash_compare k chain = some e := by
      cases hg : get_node_loop t.hash_compare k chain with
      | none => exact absurd hz ((get_node_loop_eq_none _ _ _).1 hg e he)
      | some e' => exact ⟨e', rfl⟩
    refine ⟨HASH_KEY_ALREADY_ENTERED, t, by simp [hl], ?_, ?_, ?_⟩
    · simp only [true_iff]
      obtain ⟨e', he'⟩ := hsome
      exact ⟨e', (hget e').2 he'⟩
    · simp only [true_iff]
      exact ⟨e, he, hz⟩
    · intro _
      exact ⟨rfl, rfl⟩
  · have hl' : insert_loop t.hash_compare k chain = false := by simpa using hl
    have hno := (insert_loop_eq_false _ _ _).1 hl'
    have hnone : get_node_loop t.hash_compare k chain = none :=
      (get_node_loop_eq_none _ _ _).2 hno
    have hnot1 : ¬ ∃ e, ht_get_node t k = some (some e) := by
      rintro ⟨e, he⟩
      rw [hget, hnone] at he
      cases he
    have hnot2 : ¬ ∃ e ∈ chain, t.hash_compare e.key k = 0 := by
      rintro ⟨e, he, hz⟩
      exact hno e he hz
    rw [if_neg hl]
    cases ht_new_entry k v2 node_ok link_ok with
    | none =>
      exact ⟨HASH_CANT_ALOC_MEM, t, rfl,
        by simp [hnot1, HASH_CANT_ALOC_MEM, HASH_KEY_ALREADY_ENTERED],
        by simp [hnot2, HASH_CANT_ALOC_MEM, HASH_KEY_ALREADY_ENTERED],
        by simp [HASH_CANT_ALOC_MEM, HASH_KEY_ALREADY_ENTERED]⟩
    | some new_node =>
      exact ⟨HASH_SUCCESS, _, rfl,
        by simp [hnot1, HASH_SUCCESS, HASH_KEY_ALREADY_ENTERED],
        by simp [hnot2, HASH_SUCCESS, HASH_KEY_ALREADY_ENTERED],
        by simp [HASH_SUCCESS, HASH_KEY_ALREADY_ENTERED]⟩

/-- Witness of C2: "hg456h" is inserted a second time, with other data. -/
theorem insert_duplicate_rejected_witness :
    bucket sample_one (some key_hg456h)
      = some [{ key := some key_hg456h, data := some data_hh }] ∧
    ∃ r t', ht_insert sample_one (some key_hg456h) (some data_ii) true true = some (r, t') ∧
      (r = HASH_KEY_ALREADY_ENTERED ↔
        ∃ e, ht_get_node sample_one (some key_hg456h) = some (some e)) ∧
      (r = HASH_KEY_ALREADY_ENTERED ↔
        ∃ e ∈ [({ key := some key_hg456h, data := some data_hh } : Node Str Str)],
          sample_one.hash_compare e.key (some key_hg456h) = 0) ∧
      (r = HASH_KEY_ALREADY_ENTERED → t' = sample_one ∧
        ht_get_node t' (some key_hg456h) = ht_get_node sample_one (some key_hg456h)) :=
  have hb : bucket sample_one (some key_hg456h)
      = some [{ key := some key_hg456h, data := some data_hh }] := by
    have ha : sample_one.hash_address sample_one.size (some key_hg456h) = 17 := by decide
    unfold bucket
    simp only [ha]
    rfl
  ⟨hb, insert_duplicate_rejected sample_one (some key_hg456h) (some data_ii) true true _ hb⟩

/-! ## Deletion of an entry -/

theorem delete_loop_eq (cmp : Hash_key_compare K) (key : Ptr K) (chain : HashmapNode K V) :
    delete_loop cmp key chain =
      (get_node_loop cmp key chain).map
        (fun found => (found, chain.eraseP (matches_key cmp key))) := by
  induction chain with
  | nil => rfl
  | cons node next ih =>
    by_cases h : cmp node.key key = 0
    · cases next <;> simp [delete_loop, get_node_loop, matches_key, h]
    · simp only [delete_loop, get_node_loop, h, if_false, ih]
      cases get_node_loop cmp key next <;> simp [matches_key, h]

theorem ht_delete_entry_eq (t : HashTable K V) (key : Ptr K)
    (table : List (HashmapNode K V)) (chain : HashmapNode K V)
    (ht : t.table = some table) (hc : table[t.hash_address t.size key]? = some chain) :
    ht_delete_entry t key =
      match get_node_loop t.hash_compare key chain with
      | none => some (HASH_ENTRY_NOT_FOUND, t, [])
      | some found =>
        some (HASH_ENTRY_DELETED,
          { t with table := some (table.set (t.hash_address t.size key)
            (chain.eraseP (matches_key t.hash_compare key))) }, [found]) := by
  unfold ht_delete_entry
  simp only [ht, hc]
  cases chain with
  | nil => rfl
  | cons node next =>
    by_cases h : t.hash_compare node.key key = 0
    · cases next <;> simp [get_node_loop, matches_key, h]
    · simp only [h, if_false, delete_loop_eq, get_node_loop]
      cases get_node_loop t.hash_compare key next <;> simp [matches_key, h]

theorem ht_delete_entry_defined (t t' : HashTable K V) (key : Ptr K) (r : Int)
    (log : List (Node K V)) (h : ht_delete_entry t key = some (r, t', log)) :
    ∃ table chain, t.table = some table ∧
      table[t.hash_address t.size key]? = some chain := by
  unfold ht_delete_entry at h
  cases ht : t.table with
  | none => simp [ht] at h
  | some table =>
    cases hc : table[t.hash_address t.size key]? with
    | none => simp [ht, hc] at h
    | some chain => exact ⟨table, chain, rfl, hc⟩

theorem eraseP_first_match (cmp : Hash_key_compare K) (key : Ptr K)
    (pre post : HashmapNode K V) (e : Node K V) (hpre : ∀ n ∈ pre, cmp n.key key ≠ 0)
    (he : cmp e.key key = 0) :
    (pre ++ e :: post).eraseP (matches_key cmp key) = pre ++ post := by
  rw [List.eraseP_append_right]
  · simp [matches_key, he]
  · intro n hn
    simp [matches_key, hpre n hn]

/-! ## The invariant of the reachable tables -/

theorem inv_set (t : HashTable K V) (table : List (HashmapNode K V)) (a : Nat)
    (chain : HashmapNode K V) (hinv : Inv t) (ht : t.table = some table)
    (hok : BucketOk t a chain) :
    Inv { t with table := some (table.set a chain) } := by
  obtain ⟨table0, ht0, hlen, hall⟩ := hinv
  rw [ht] at ht0
  cases ht0
  refine ⟨table.set a chain, rfl, by simpa using hlen, ?_⟩
  intro i c hi
  rw [List.getElem?_set] at hi
  by_cases hai : a = i
  · subst hai
    by_cases hlt : a < table.length
    · simp only [if_true, hlt, Option.some.injEq] at hi
      subst hi
      exact hok
    · simp [hlt] at hi
  · rw [if_neg hai] at hi
    exact hall i c hi

theorem inv_ht_create (txt : K → List Int) (descriptor created : HashTable K V)
    (size_table : Nat) (hash_address : Ptr (Hash_address K))
    (hash_compare : Ptr (Hash_key_compare K))
    (hash_node_delete : Ptr (Hash_node_delete K V)) (malloc_ok : Bool)
    (h : ht_create txt descriptor size_table hash_address hash_compare hash_node_delete
      malloc_ok = some (HASH_SUCCESS, created)) :
    Inv created ∧ 1 ≤ created.size := by
  unfold ht_create at h
  by_cases h1 : size_table < 1
  · simp [h1, HASH_INVALID_SIZE, HASH_SUCCESS] at h
  · rw [if_neg h1] at h
    by_cases h2 : malloc_ok = false
    · simp [h2, HASH_CANT_ALOC_MEM, HASH_SUCCESS] at h
    · rw [if_neg h2] at h
      by_cases h3 : INT_MAX < size_table
      · simp [h3] at h
      · rw [if_neg h3] at h
        simp only [Option.some.injEq, Prod.mk.injEq, true_and] at h
        subst h
        refine ⟨⟨List.replicate size_table [], rfl, by simp, ?_⟩, Nat.le_of_not_lt h1⟩
        intro i chain hi
        rw [List.getElem?_replicate] at hi
        by_cases hlt : i < size_table
        · simp only [hlt, if_true, Option.some.injEq] at hi
          subst hi
          exact ⟨List.Pairwise.nil, by simp⟩
        · simp [hlt] at hi

theorem inv_ht_insert (t t' : HashTable K V) (key : Ptr K) (data : Ptr V)
    (node_ok link_ok : Bool) (r : Int) (hinv : Inv t)
    (h : ht_insert t key data node_ok link_ok = some (r, t')) :
    Inv t' ∧ t'.size = t.size ∧ t'.hash_address = t.hash_address ∧
      t'.hash_compare = t.hash_compare := by
  obtain ⟨table, chain, ht, hc⟩ := ht_insert_defined t t' key data node_ok link_ok r h
  rw [ht_insert_eq t key data node_ok link_ok table chain ht hc] at h
  by_cases hl : insert_loop t.hash_compare key chain = true
  · simp only [hl, if_true, Option.some.injEq, Prod.mk.injEq] at h
    rw [← h.2]
    exact ⟨hinv, rfl, rfl, rfl⟩
  · have hl' : insert_loop t.hash_compare key chain = false := by simpa using hl
    have hno := (insert_loop_eq_false _ _ _).1 hl'
    rw [if_neg hl] at h
    cases hn : ht_new_entry key data node_ok link_ok with
    | none =>
      simp only [hn, Option.some.injEq, Prod.mk.injEq] at h
      rw [← h.2]
      exact ⟨hinv, rfl, rfl, rfl⟩
    | some new_node =>
      obtain ⟨_, _, _, _, h5⟩ :=
        (ht_new_entry_eq_some key data node_ok link_ok new_node).1 hn
      simp only [hn, Option.some.injEq, Prod.mk.injEq] at h
      rw [← h.2]
      refine ⟨inv_set t table _ _ hinv ht ?_, rfl, rfl, rfl⟩
      obtain ⟨table0, ht0, _, hall⟩ := hinv
      rw [ht] at ht0
      cases ht0
      obtain ⟨hpw, hplace⟩ := hall _ chain hc
      subst h5
      constructor
      · rw [List.pairwise_append]
        refine ⟨hpw, by simp, ?_⟩
        intro a ha b hb
        rw [List.mem_singleton] at hb
        subst hb
        exact hno a ha
      · intro n hn'
        rcases List.mem_append.1 hn' with hn' | hn'
        · exact hplace n hn'
        · rw [List.mem_singleton] at hn'
          subst hn'
          rfl

theorem inv_ht_delete_entry (t t' : HashTable K V) (key : Ptr K) (r : Int)
    (log : List (Node K V)) (hinv : Inv t)
    (h : ht_delete_entry t key = some (r, t', log)) :
    Inv t' ∧ t'.size = t.size ∧ t'.hash_address = t.hash_address ∧
      t'.hash_compare = t.hash_compare := by
  obtain ⟨table, chain, ht, hc⟩ := ht_delete_entry_defined t t' key r log h
  rw [ht_delete_entry_eq t key table chain ht hc] at h
  cases hg : get_node_loop t.hash_compare key chain with
  | none =>
    simp only [hg, Option.some.injEq, Prod.mk.injEq] at h
    rw [← h.2.1]
    exact ⟨hinv, rfl, rfl, rfl⟩
  | some found =>
    simp only [hg, Option.some.injEq, Prod.mk.injEq] at h
    rw [← h.2.1]
    refine ⟨inv_set t table _ _ hinv ht ?_, rfl, rfl, rfl⟩
    obtain ⟨table0, ht0, _, hall⟩ := hinv
    rw [ht] at ht0
    cases ht0
    obtain ⟨hpw, hplace⟩ := hall _ chain hc
    exact ⟨hpw.sublist (List.eraseP_sublist chain),
      fun n hn => hplace n (List.mem_of_mem_eraseP hn)⟩

theorem inv_apply_ops (ops : List (Op K V)) (t t' : HashTable K V) (hinv : Inv t)
    (h : apply_ops t ops = some t') :
    Inv t' ∧ t'.size = t.size := by
  induction ops generalizing t with
  | nil =>
    simp only [apply_ops, Option.some.injEq] at h
    subst h
    exact ⟨hinv, rfl⟩
  | cons op ops ih =>
    simp only [apply_ops] at h
    cases hop : apply_op t op with
    | none => simp [hop] at h
    | some next_table =>
      simp only [hop] at h
      have hstep : Inv next_table ∧ next_table.size = t.size := by
        cases op with
        | insert key data node_ok link_ok =>
          simp only [apply_op, Option.map_eq_some'] at hop
          obtain ⟨⟨r, t1⟩, hr, rfl⟩ := hop
          have := inv_ht_insert t t1 key data node_ok link_ok r hinv hr
          exact ⟨this.1, this.2.1⟩
        | delete_entry key =>
          simp only [apply_op, Option.map_eq_some'] at hop
          obtain ⟨⟨r, t1, log⟩, hr, rfl⟩ := hop
          have := inv_ht_delete_entry t t1 key r log hinv hr
          exact ⟨this.1, this.2.1⟩
      have := ih next_table hstep.1 h
      exact ⟨this.1, this.2.trans hstep.2⟩

theorem inv_of_reachable (t : HashTable K V) (h : Reachable t) : Inv t ∧ 1 ≤ t.size := by
  obtain ⟨txt, descriptor, size_table, ha, hc, hd, ok, created, ops, hcreate, hops⟩ := h
  have h0 := inv_ht_create txt descriptor created size_table ha hc hd ok hcreate
  have h1 := inv_apply_ops ops created t h0.1 hops
  exact ⟨h1.1, h1.2 ▸ h0.2⟩

/-! ## The operations return a result on a table with an in-range address policy -/

theorem bucket_defined (t : HashTable K V) (k : Ptr K) (hinv : Inv t)
    (hrange : t.hash_address t.size k < t.size) : ∃ chain, bucket t k = some chain := by
  obtain ⟨table, ht, hlen, _⟩ := hinv
  have hlt : t.hash_address t.size k < table.length := hlen ▸ hrange
  refine ⟨table[t.hash_address t.size k], ?_⟩
  simp only [bucket, ht]
  exact List.getElem?_eq_getElem hlt

theorem ht_insert_total (t : HashTable K V) (k : Ptr K) (v : Ptr V) (node_ok link_ok : Bool)
    (chain : HashmapNode K V) (hb : bucket t k = some chain) :
    ∃ r t', ht_insert t k v node_ok link_ok = some (r, t') := by
  obtain ⟨table, ht, hc⟩ := (bucket_eq_some t k chain).1 hb
  rw [ht_insert_eq t k v node_ok link_ok table chain ht hc]
  split
  · exact ⟨_, _, rfl⟩
  · cases ht_new_entry k v node_ok link_ok with
    | none => exact ⟨_, _, rfl⟩
    | some new_node => exact ⟨_, _, rfl⟩

theorem ht_delete_entry_total (t : HashTable K V) (k : Ptr K) (chain : HashmapNode K V)
    (hb : bucket t k = some chain) :
    ∃ r t' log, ht_delete_entry t k = some (r, t', log) := by
  obtain ⟨table, ht, hc⟩ := (bucket_eq_some t k chain).1 hb
  rw [ht_delete_entry_eq t k table chain ht hc]
  cases get_node_loop t.hash_compare k chain with
  | none => exact ⟨_, _, _, rfl⟩
  | some found => exact ⟨_, _, _, rfl⟩

theorem apply_ops_total (ops : List (Op K V)) (t : HashTable K V) (hinv : Inv t)
    (hrange : ∀ k, t.hash_address t.size k < t.size) :
    ∃ t', apply_ops t ops = some t' := by
  induction ops generalizing t with
  | nil => exact ⟨t, rfl⟩
  | cons op ops ih =>
    cases op with
    | insert key data node_ok link_ok =>
      obtain ⟨chain, hb⟩ := bucket_defined t key hinv (hrange key)
      obtain ⟨r, t1, h1⟩ := ht_insert_total t key data node_ok link_ok chain hb
      obtain ⟨hinv1, hsize, haddr, _⟩ := inv_ht_insert t t1 key data node_ok link_ok r hinv h1
      obtain ⟨t', ht'⟩ := ih t1 hinv1 (fun k => by rw [hsize, haddr]; exact hrange k)
      exact ⟨t', by simp only [apply_ops, apply_op, h1, Option.map_some', ht']⟩
    | delete_entry key =>
      obtain ⟨chain, hb⟩ := bucket_defined t key hinv (hrange key)
      obtain ⟨r, t1, log, h1⟩ := ht_delete_entry_total t key chain hb
      obtain ⟨hinv1, hsize, haddr, _⟩ := inv_ht_delete_entry t t1 key r log hinv h1
      obtain ⟨t', ht'⟩ := ih t1 hinv1 (fun k => by rw [hsize, haddr]; exact hrange k)
      exact ⟨t', by simp only [apply_ops, apply_op, h1, Option.map_some', ht']⟩

/-! ## The default policies -/

theorem strcmp_loop_eq_zero (s t : List Int) : strcmp_loop s t = 0 ↔ s = t := by
  induction s generalizing t with
  | nil => cases t <;> simp [strcmp_loop]
  | cons a s ih =>
    cases t with
    | nil => simp [strcmp_loop]
    | cons b t =>
      by_cases hab : a = b
      · simp [strcmp_loop, hab, ih]
      · simp only [strcmp_loop, hab, if_false, List.cons.injEq, false_and, iff_false]
        split <;> simp

theorem default_compare_eq_zero (txt : K → List Int) (a b : Ptr K) :
    default_compare txt a b = 0 ↔ c_string (key_text txt a) = c_string (key_text txt b) := by
  unfold default_compare strcmp
  exact strcmp_loop_eq_zero _ _

theorem default_compare_refl (txt : K → List Int) (a : Ptr K) :
    default_compare txt a a = 0 :=
  (default_compare_eq_zero txt a a).2 rfl

theorem default_compare_symm (txt : K → List Int) (a b : Ptr K)
    (h : default_compare txt a b = 0) : default_compare txt b a = 0 :=
  (default_compare_eq_zero txt b a).2 ((default_compare_eq_zero txt a b).1 h).symm

theorem default_compare_trans (txt : K → List Int) (a b c : Ptr K)
    (hab : default_compare txt a b = 0) (hbc : default_compare txt b c = 0) :
    default_compare txt a c = 0 :=
  (default_compare_eq_zero txt a c).2
    (((default_compare_eq_zero txt a b).1 hab).trans ((default_compare_eq_zero txt b c).1 hbc))

theorem foldl_invariant {α β : Type} (P : α → Prop) (f : α → β → α) (l : List β) (init : α)
    (h0 : P init) (hstep : ∀ a i, P a → P (f a i)) : P (l.foldl f init) := by
  induction l generalizing init with
  | nil => exact h0
  | cons i l ih => exact ih (f init i) (hstep init i h0)

theorem foldl_range_congr {α : Type} (f g : α → Nat → α) (n : Nat) (init : α)
    (h : ∀ a i, i < n → f a i = g a i) :
    (List.range n).foldl f init = (List.range n).foldl g init := by
  induction n with
  | zero => rfl
  | succ n ih =>
    rw [List.range_succ, List.foldl_append, List.foldl_append,
      ih (fun a i hi => h a i (Nat.lt_succ_of_lt hi))]
    simp [h _ n (Nat.lt_succ_self n)]

/-- The default address is a bucket index as soon as the table has a bucket. -/
theorem default_hash_addr_lt (txt : K → List Int) (size : Nat) (key : Ptr K)
    (hsize : 1 ≤ size) : default_hash_addr txt size key < size := by
  unfold default_hash_addr
  by_cases hbig : UINT_RANGE ≤ size
  · exact Nat.lt_of_lt_of_le (Nat.mod_lt _ (by decide)) hbig
  · have hinv : 1 ≤ (List.range (to_int (strlen (key_text txt key))).toNat).foldl
        (fun address i =>
          (((address * to_unsigned ((key_text txt key).getD i 0)) % UINT_RANGE) % size + 1)
            % UINT_RANGE) 1 ∧
        (List.range (to_int (strlen (key_text txt key))).toNat).foldl
        (fun address i =>
          (((address * to_unsigned ((key_text txt key).getD i 0)) % UINT_RANGE) % size + 1)
            % UINT_RANGE) 1 ≤ size := by
      refine foldl_invariant (fun a => 1 ≤ a ∧ a ≤ size) _ _ 1 ⟨Nat.le_refl 1, hsize⟩ ?_
      intro a i _
      have hx : (a * to_unsigned ((key_text txt key).getD i 0)) % UINT_RANGE % size < size :=
        Nat.mod_lt _ hsize
      generalize (a * to_unsigned ((key_text txt key).getD i 0)) % UINT_RANGE % size = x at hx
      simp only [UINT_RANGE] at hbig ⊢
      omega
    simp only
    generalize (List.range (to_int (strlen (key_text txt key))).toNat).foldl
        (fun address i =>
          (((address * to_unsigned ((key_text txt key).getD i 0)) % UINT_RANGE) % size + 1)
            % UINT_RANGE) 1 = address at hinv
    simp only [UINT_RANGE] at hbig ⊢
    omega

theorem to_int_toNat_le (n : Nat) : (to_int n).toNat ≤ n := by
  unfold to_int
  have h := Nat.mod_le n UINT_RANGE
  split
  · simp only [Int.toNat_ofNat]
    exact h
  · simp only [UINT_RANGE] at h ⊢
    omega

theorem getD_takeWhile (p : Int → Bool) (l : List Int) (i : Nat)
    (h : i < (l.takeWhile p).length) : l.getD i 0 = (l.takeWhile p).getD i 0 := by
  induction l generalizing i with
  | nil => rfl
  | cons c l ih =>
    by_cases hc : p c = true
    · simp only [List.takeWhile_cons, hc, if_true] at h ⊢
      cases i with
      | zero => rfl
      | succ i =>
        simp only [List.length_cons, Nat.succ_lt_succ_iff] at h
        simpa using ih i h
    · simp [List.takeWhile_cons, hc] at h

/-- The default address reads the key up to its terminator only. -/
theorem default_hash_addr_congr (txt : K → List Int) (size : Nat) (a b : Ptr K)
    (h : c_string (key_text txt a) = c_string (key_text txt b)) :
    default_hash_addr txt size a = default_hash_addr txt size b := by
  have hlen : strlen (key_text txt a) = strlen (key_text txt b) := by
    unfold strlen
    rw [h]
  unfold default_hash_addr
  simp only [hlen]
  rw [foldl_range_congr]
  intro address i hi
  have hi' : i < strlen (key_text txt b) := Nat.lt_of_lt_of_le hi (to_int_toNat_le _)
  have ha : (key_text txt a).getD i 0 = (c_string (key_text txt a)).getD i 0 :=
    getD_takeWhile _ _ i (by rw [← hlen] at hi'; exact hi')
  have hb : (key_text txt b).getD i 0 = (c_string (key_text txt b)).getD i 0 :=
    getD_takeWhile _ _ i hi'
  rw [ha, hb, h]

/-! ## C3: deletion removes the target and only the target -/

theorem get_node_loop_skip (cmp : Hash_key_compare K) (key : Ptr K)
    (pre post : HashmapNode K V) (e : Node K V) (he : cmp e.key key ≠ 0) :
    get_node_loop cmp key (pre ++ e :: post) = get_node_loop cmp key (pre ++ post) := by
  induction pre with
  | nil => simp [get_node_loop, he]
  | cons node next ih =>
    by_cases h : cmp node.key key = 0 <;> simp [get_node_loop, h, ih]

theorem ht_delete_entry_deleted (t t' : HashTable K V) (key : Ptr K)
    (log : List (Node K V))
    (h : ht_delete_entry t key = some (HASH_ENTRY_DELETED, t', log)) :
    ∃ table pre found post, t.table = some table ∧
      table[t.hash_address t.size key]? = some (pre ++ found :: post) ∧
      (∀ n ∈ pre, t.hash_compare n.key key ≠ 0) ∧ t.hash_compare found.key key = 0 ∧
      log = [found] ∧
      t' = { t with table := some (table.set (t.hash_address t.size key) (pre ++ post)) } := by
  obtain ⟨table, chain, ht, hc⟩ := ht_delete_entry_defined t t' key _ log h
  rw [ht_delete_entry_eq t key table chain ht hc] at h
  cases hg : get_node_loop t.hash_compare key chain with
  | none => simp [hg, HASH_ENTRY_NOT_FOUND, HASH_ENTRY_DELETED] at h
  | some found =>
    obtain ⟨pre, post, hchain, hpre, hfound⟩ := (get_node_loop_eq_some _ _ _ _).1 hg
    simp only [hg, Option.some.injEq, Prod.mk.injEq, true_and] at h
    subst hchain
    rw [eraseP_first_match _ _ _ _ _ hpre hfound] at h
    exact ⟨table, pre, found, post, ht, hc, hpre, hfound, h.2.symm, h.1.symm⟩

/-- C3: on a table reached from a fresh one by `ht_insert` and `ht_delete_entry` calls,
with an address policy that stays below `size` and a comparator that is symmetric and
transitive, and for keys `k1`, `k2` that do not compare equal: once
`ht_delete_entry(table, k1)` has returned `HASH_ENTRY_DELETED`, `ht_get_node(table, k1)`
returns `NULL` and `ht_get_node(table, k2)` returns what it returned before the deletion. -/
theorem delete_entry_removes_only_target (t t' : HashTable K V) (k1 k2 : Ptr K)
    (log : List (Node K V)) (hreach : Reachable t)
    (hrange : ∀ k, t.hash_address t.size k < t.size)
    (hsymm : ∀ a b, t.hash_compare a b = 0 → t.hash_compare b a = 0)
    (htrans : ∀ a b c, t.hash_compare a b = 0 → t.hash_compare b c = 0 →
      t.hash_compare a c = 0)
    (hne : t.hash_compare k1 k2 ≠ 0)
    (hdel : ht_delete_entry t k1 = some (HASH_ENTRY_DELETED, t', log)) :
    ht_get_node t' k1 = some none ∧
      ∃ r, ht_get_node t k2 = some r ∧ ht_get_node t' k2 = some r := by
  obtain ⟨⟨table0, ht0, hlen, hall⟩, _⟩ := inv_of_reachable t hreach
  obtain ⟨table, pre, found, post, ht, hc, hpre, hfound, _, rfl⟩ :=
    ht_delete_entry_deleted t t' k1 log hdel
  rw [ht] at ht0
  cases ht0
  have hlt1 : t.hash_address t.size k1 < table0.length := hlen ▸ hrange k1
  have hlt2 : t.hash_address t.size k2 < table0.length := hlen ▸ hrange k2
  obtain ⟨hpw, _⟩ := hall _ _ hc
  have hfound2 : t.hash_compare found.key k2 ≠ 0 := fun h =>
    hne (htrans k1 found.key k2 (hsymm _ _ hfound) h)
  constructor
  · rw [ht_get_node_eq]
    simp only [bucket, List.getElem?_set_self hlt1, Option.map_some', Option.some.injEq]
    show get_node_loop t.hash_compare k1 (pre ++ post) = none
    rw [get_node_loop_eq_none]
    intro n hn hz
    rcases List.mem_append.1 hn with hn | hn
    · exact hpre n hn hz
    · rw [List.pairwise_append] at hpw
      have hfn : t.hash_compare found.key n.key ≠ 0 := (List.pairwise_cons.1 hpw.2.1).1 n hn
      exact hfn (htrans found.key k1 n.key hfound (hsymm _ _ hz))
  · rw [ht_get_node_eq, ht_get_node_eq]
    simp only [bucket, ht]
    by_cases ha : t.hash_address t.size k1 = t.hash_address t.size k2
    · rw [← ha, List.getElem?_set_self hlt1, hc]
      exact ⟨_, rfl, by simp [get_node_loop_skip _ _ _ _ _ hfound2]⟩
    · rw [List.getElem?_set_ne ha]
      obtain ⟨chain2, hc2⟩ : ∃ c, table0[t.hash_address t.size k2]? = some c :=
        ⟨_, List.getElem?_eq_getElem hlt2⟩
      rw [hc2]
      exact ⟨_, rfl, rfl⟩

theorem sample_address_hg456h :
    default_hash_addr id 23 (some key_hg456h) = 17 := by decide

theorem sample_address_7dfgsd89 :
    default_hash_addr id 23 (some key_7dfgsd89) = 12 := by decide

theorem sample_create (descriptor : HashTable Str Str) :
    ht_create id descriptor 23 none none none true = some (HASH_SUCCESS, sample_empty) := rfl

theorem sample_insert_hg456h :
    ht_insert sample_empty (some key_hg456h) (some data_hh) true true
      = some (HASH_SUCCESS, sample_one) := by
  have ha : sample_empty.hash_address sample_empty.size (some key_hg456h) = 17 :=
    sample_address_hg456h
  unfold ht_insert
  simp only [ha]
  rfl

theorem sample_insert_7dfgsd89 :
    ht_insert sample_one (some key_7dfgsd89) (some data_ee77777) true true
      = some (HASH_SUCCESS, sample_two) := by
  have ha : sample_one.hash_address sample_one.size (some key_7dfgsd89) = 12 :=
    sample_address_7dfgsd89
  unfold ht_insert
  simp only [ha]
  rfl

theorem sample_two_reachable : Reachable sample_two :=
  ⟨id, sample_empty, 23, none, none, none, true, sample_empty,
    [Op.insert (some key_hg456h) (some data_hh) true true,
     Op.insert (some key_7dfgsd89) (some data_ee77777) true true],
    sample_create sample_empty, by
      simp only [apply_ops, apply_op, sample_insert_hg456h, sample_insert_7dfgsd89,
        Option.map_some']⟩

theorem sample_delete_hg456h :
    ht_delete_entry sample_two (some key_hg456h)
      = some (HASH_ENTRY_DELETED, sample_two_deleted,
          [{ key := some key_hg456h, data := some data_hh }]) := by
  have ha : sample_two.hash_address sample_two.size (some key_hg456h) = 17 :=
    sample_address_hg456h
  have hcmp : sample_two.hash_compare (some key_hg456h) (some key_hg456h) = 0 :=
    default_compare_refl id _
  unfold ht_delete_entry
  simp only [ha]
  simp [sample_two, sample, sample_two_deleted, default_compare_refl]

/-- Witness of C3: "hg456h" is deleted from the sample table that holds "hg456h" and
"7dfgsd89", under the default policies. -/
theorem delete_entry_removes_only_target_witness :
    Reachable sample_two ∧
    sample_two.hash_compare (some key_hg456h) (some key_7dfgsd89) ≠ 0 ∧
    ht_delete_entry sample_two (some key_hg456h)
      = some (HASH_ENTRY_DELETED, sample_two_deleted,
          [{ key := some key_hg456h, data := some data_hh }]) ∧
    ht_get_node sample_two_deleted (some key_hg456h) = some none ∧
    ∃ r, ht_get_node sample_two (some key_7dfgsd89) = some r ∧
      ht_get_node sample_two_deleted (some key_7dfgsd89) = some r :=
  have hne : sample_two.hash_compare (some key_hg456h) (some key_7dfgsd89) ≠ 0 := by decide
  have h := delete_entry_removes_only_target sample_two sample_two_deleted
    (some key_hg456h) (some key_7dfgsd89) _ sample_two_reachable
    (fun k => default_hash_addr_lt id 23 k (by decide))
    (fun a b => default_compare_symm id a b)
    (fun a b c => default_compare_trans id a b c)
    hne sample_delete_hg456h
  ⟨sample_two_reachable, hne, sample_delete_hg456h, h.1, h.2⟩

/-! ## C5: uniqueness of the keys -/

theorem unique_keys_of_inv (t : HashTable K V) (hinv : Inv t)
    (hsame : ∀ a b, t.hash_compare a b = 0 →
      t.hash_address t.size a = t.hash_address t.size b)
    (hsymm : ∀ a b, t.hash_compare a b = 0 → t.hash_compare b a = 0) :
    UniqueKeys t := by
  obtain ⟨table, ht, _, hall⟩ := hinv
  unfold UniqueKeys entries
  simp only [ht]
  rw [List.pairwise_flatten]
  constructor
  · intro chain hchain
    obtain ⟨i, hi⟩ := List.getElem?_of_mem hchain
    exact (hall i chain hi).1.imp (fun {a b} hab => ⟨hab, fun hba => hab (hsymm _ _ hba)⟩)
  · rw [List.pairwise_iff_getElem]
    intro i j hi hj hij x hx y hy
    have hxi := (hall i _ (List.getElem?_eq_getElem hi)).2 x hx
    have hyj := (hall j _ (List.getElem?_eq_getElem hj)).2 y hy
    constructor
    · intro h
      have := hsame _ _ h
      omega
    · intro h
      have := hsame _ _ h
      omega

/-- C5: on every table reached from a successful `ht_create` by `ht_insert` and
`ht_delete_entry` calls, with an address policy that gives keys the comparator reports
equal the same address and a symmetric comparator, the comparator returns non-zero for
the keys of every two distinct live entries of the table, in both argument orders. -/
theorem reachable_unique_keys (t : HashTable K V) (hreach : Reachable t)
    (hsame : ∀ a b, t.hash_compare a b = 0 →
      t.hash_address t.size a = t.hash_address t.size b)
    (hsymm : ∀ a b, t.hash_compare a b = 0 → t.hash_compare b a = 0) :
    (∃ table, t.table = some table ∧ table.length = t.size ∧ entries t = table.flatten) ∧
    (entries t).Pairwise (fun a b =>
      t.hash_compare a.key b.key ≠ 0 ∧ t.hash_compare b.key a.key ≠ 0) := by
  have hinv := (inv_of_reachable t hreach).1
  refine ⟨?_, unique_keys_of_inv t hinv hsame hsymm⟩
  obtain ⟨table, ht, hlen, _⟩ := hinv
  exact ⟨table, ht, hlen, by simp [entries, ht]⟩

theorem default_same_address (txt : K → List Int) (size : Nat) (a b : Ptr K)
    (h : default_compare txt a b = 0) :
    default_hash_addr txt size a = default_hash_addr txt size b :=
  default_hash_addr_congr txt size a b ((default_compare_eq_zero txt a b).1 h)

/-- Witness of C5: the sample table holding "hg456h" and "7dfgsd89", under the default
string hash and `strcmp`. -/
theorem reachable_unique_keys_witness :
    Reachable sample_two ∧
    entries sample_two = [{ key := some key_7dfgsd89, data := some data_ee77777 },
      { key := some key_hg456h, data := some data_hh }] ∧
    (entries sample_two).Pairwise (fun a b =>
      sample_two.hash_compare a.key b.key ≠ 0 ∧ sample_two.hash_compare b.key a.key ≠ 0) :=
  ⟨sample_two_reachable, by decide,
    (reachable_unique_keys sample_two sample_two_reachable
      (fun a b => default_same_address id 23 a b)
      (fun a b => default_compare_symm id a b)).2⟩

/-! ## C4: the result of a deletion -/

theorem no_match_after_unlink (cmp : Hash_key_compare K) (key : Ptr K)
    (pre post : HashmapNode K V) (found : Node K V)
    (hpw : (pre ++ found :: post).Pairwise (fun a b => cmp a.key b.key ≠ 0))
    (hpre : ∀ n ∈ pre, cmp n.key key ≠ 0) (hfound : cmp found.key key = 0)
    (hsymm : ∀ a b, cmp a b = 0 → cmp b a = 0)
    (htrans : ∀ a b c, cmp a b = 0 → cmp b c = 0 → cmp a c = 0) :
    ∀ n ∈ pre ++ post, cmp n.key key ≠ 0 := by
  intro n hn hz
  rcases List.mem_append.1 hn with hn | hn
  · exact hpre n hn hz
  · rw [List.pairwise_append] at hpw
    exact (List.pairwise_cons.1 hpw.2.1).1 n hn (htrans _ _ _ hfound (hsymm _ _ hz))

/-- C4, as amended: on a table whose bucket access for `k` is defined,
`ht_delete_entry(table, k)` returns `HASH_ENTRY_DELETED` (1) if and only if
`ht_get_node(table, k)` was non-null before the call, and otherwise returns
`HASH_ENTRY_NOT_FOUND` (-5) and leaves the table, hence every bucket chain, as it was;
and when the table has unique keys and the comparator is symmetric and transitive, a second
`ht_delete_entry(table, k)` right after a successful one returns `HASH_ENTRY_NOT_FOUND`. -/
theorem delete_entry_result (t : HashTable K V) (k : Ptr K) (chain : HashmapNode K V)
    (hb : bucket t k = some chain) :
    HASH_ENTRY_DELETED = 1 ∧ HASH_ENTRY_NOT_FOUND = -5 ∧
    ∃ r t' log, ht_delete_entry t k = some (r, t', log) ∧
      (r = HASH_ENTRY_DELETED ↔ ∃ e, ht_get_node t k = some (some e)) ∧
      (r ≠ HASH_ENTRY_DELETED → r = HASH_ENTRY_NOT_FOUND ∧ t' = t) ∧
      (r = HASH_ENTRY_DELETED → UniqueKeys t →
        (∀ a b, t.hash_compare a b = 0 → t.hash_compare b a = 0) →
        (∀ a b c, t.hash_compare a b = 0 → t.hash_compare b c = 0 →
          t.hash_compare a c = 0) →
        ht_delete_entry t' k = some (HASH_ENTRY_NOT_FOUND, t', [])) := by
  refine ⟨rfl, rfl, ?_⟩
  obtain ⟨table, ht, hc⟩ := (bucket_eq_some t k chain).1 hb
  have hget : ht_get_node t k = some (get_node_loop t.hash_compare k chain) := by
    rw [ht_get_node_eq, hb]
    rfl
  rw [ht_delete_entry_eq t k table chain ht hc, hget]
  cases hg : get_node_loop t.hash_compare k chain with
  | none =>
    refine ⟨HASH_ENTRY_NOT_FOUND, t, [], rfl, ?_, fun _ => ⟨rfl, rfl⟩, ?_⟩
    · simp [HASH_ENTRY_NOT_FOUND, HASH_ENTRY_DELETED]
    · intro h
      simp [HASH_ENTRY_NOT_FOUND, HASH_ENTRY_DELETED] at h
  | some found =>
    refine ⟨HASH_ENTRY_DELETED, _, [found], rfl, ?_, fun h => absurd rfl h, ?_⟩
    · simp
    · intro _ huniq hsymm htrans
      obtain ⟨pre, post, hchain, hpre, hfound⟩ := (get_node_loop_eq_some _ _ _ _).1 hg
      subst hchain
      have hlt : t.hash_address t.size k < table.length := by
        by_contra hge
        rw [List.getElem?_eq_none (Nat.le_of_not_lt hge)] at hc
        cases hc
      have hpw : (pre ++ found :: post).Pairwise
          (fun a b => t.hash_compare a.key b.key ≠ 0) := by
        unfold UniqueKeys entries at huniq
        simp only [ht] at huniq
        exact ((List.pairwise_flatten.1 huniq).1 _ (List.getElem?_mem hc)).imp
          (fun {a b} hab => hab.1)
      have hno := no_match_after_unlink t.hash_compare k pre post found hpw hpre hfound
        hsymm htrans
      rw [eraseP_first_match _ _ _ _ _ hpre hfound]
      have hnone : get_node_loop t.hash_compare k (pre ++ post) = none :=
        (get_node_loop_eq_none _ _ _).2 hno
      rw [ht_delete_entry_eq
        { t with table := some (table.set (t.hash_address t.size k) (pre ++ post)) } k
        (table.set (t.hash_address t.size k) (pre ++ post))
        (pre ++ post) rfl (List.getElem?_set_self hlt)]
      simp only [hnone]

/-- Witness of C4: "hg456h" is deleted twice from the sample table that holds "hg456h" and
"7dfgsd89". -/
theorem delete_entry_result_witness :
    bucket sample_two (some key_hg456h)
      = some [{ key := some key_hg456h, data := some data_hh }] ∧
    ht_delete_entry sample_two (some key_hg456h)
      = some (HASH_ENTRY_DELETED, sample_two_deleted,
          [{ key := some key_hg456h, data := some data_hh }]) ∧
    ht_delete_entry sample_two_deleted (some key_hg456h)
      = some (HASH_ENTRY_NOT_FOUND, sample_two_deleted, []) := by
  have hb : bucket sample_two (some key_hg456h)
      = some [{ key := some key_hg456h, data := some data_hh }] := by
    have ha : sample_two.hash_address sample_two.size (some key_hg456h) = 17 :=
      sample_address_hg456h
    unfold bucket
    simp only [ha]
    rfl
  obtain ⟨_, _, r, t', log, hdel, _, _, h4⟩ :=
    delete_entry_result sample_two (some key_hg456h) _ hb
  rw [sample_delete_hg456h] at hdel
  simp only [Option.some.injEq, Prod.mk.injEq] at hdel
  obtain ⟨rfl, rfl, rfl⟩ := hdel
  have huniq : UniqueKeys sample_two :=
    unique_keys_of_inv sample_two (inv_of_reachable _ sample_two_reachable).1
      (fun a b => default_same_address id 23 a b)
      (fun a b => default_compare_symm id a b)
  exact ⟨hb, sample_delete_hg456h,
    h4 rfl huniq (fun a b => default_compare_symm id a b)
      (fun a b c => default_compare_trans id a b c)⟩

/-- Counterexample to C4 as stated: with the tolerance comparator `near_compare`, the table
reached by inserting the keys 1 and 3 has unique keys (1 and 3 do not compare equal), yet
`ht_delete_entry(table, 2)` returns `HASH_ENTRY_DELETED` twice in a row: the first call
unlinks key 1, the second unlinks key 3. -/
theorem delete_twice_counterexample :
    Reachable (near_table [{ key := some 1, data := some 10 },
      { key := some 3, data := some 30 }]) ∧
    UniqueKeys (near_table [{ key := some 1, data := some 10 },
      { key := some 3, data := some 30 }]) ∧
    ht_delete_entry (near_table [{ key := some 1, data := some 10 },
      { key := some 3, data := some 30 }]) (some 2)
      = some (HASH_ENTRY_DELETED, near_table [{ key := some 3, data := some 30 }],
          [{ key := some 1, data := some 10 }]) ∧
    ht_delete_entry (near_table [{ key := some 3, data := some 30 }]) (some 2)
      = some (HASH_ENTRY_DELETED, near_table [], [{ key := some 3, data := some 30 }]) ∧
    HASH_ENTRY_DELETED ≠ HASH_ENTRY_NOT_FOUND := by
  refine ⟨?_, ?_, rfl, rfl, by decide⟩
  · exact ⟨fun _ => [], near_table [], 1, some (fun _ _ => 0), some near_compare, none, true,
      near_table [],
      [Op.insert (some 1) (some 10) true true, Op.insert (some 3) (some 30) true true],
      rfl, rfl⟩
  · unfold UniqueKeys entries
    simp [near_table, near_compare]

/-! ## C6: lookup is a first-match search of one bucket -/

/-- C6: on a table whose bucket access for `k` is defined, `ht_get_node(table, k)` returns
a result; it returns the node `e` exactly when `e` is the first link, in chain order, of
bucket `hash_address(table, k)` whose key makes `hash_compare(entry_key, k)` return 0; it
returns `NULL` exactly when no link of that chain does (so also on an empty bucket); and
the result is the same on every bucket array that holds the same chain at that bucket. -/
theorem get_node_first_match (t : HashTable K V) (k : Ptr K) (chain : HashmapNode K V)
    (hb : bucket t k = some chain) :
    (∃ r, ht_get_node t k = some r) ∧
    (∀ e, ht_get_node t k = some (some e) ↔
      ∃ pre post, chain = pre ++ e :: post ∧ (∀ n ∈ pre, t.hash_compare n.key k ≠ 0) ∧
        t.hash_compare e.key k = 0) ∧
    (ht_get_node t k = some none ↔ ∀ n ∈ chain, t.hash_compare n.key k ≠ 0) ∧
    (chain = [] → ht_get_node t k = some none) ∧
    (∀ other : List (HashmapNode K V),
      other[t.hash_address t.size k]? = some chain →
      ht_get_node { t with table := some other } k = ht_get_node t k) := by
  have hget : ht_get_node t k = some (get_node_loop t.hash_compare k chain) := by
    rw [ht_get_node_eq, hb]
    rfl
  refine ⟨⟨_, hget⟩, ?_, ?_, ?_, ?_⟩
  · intro e
    rw [hget, Option.some.injEq]
    exact get_node_loop_eq_some _ _ _ _
  · rw [hget, Option.some.injEq]
    exact get_node_loop_eq_none _ _ _
  · rintro rfl
    rw [hget]
    rfl
  · intro other hother
    rw [hget, ht_get_node_eq]
    simp only [bucket, hother, Option.map_some']

/-- Witness of C6: the lookup of "7dfgsd89" in the sample table that holds "hg456h" and
"7dfgsd89". -/
theorem get_node_first_match_witness :
    bucket sample_two (some key_7dfgsd89)
      = some [{ key := some key_7dfgsd89, data := some data_ee77777 }] ∧
    ht_get_node sample_two (some key_7dfgsd89)
      = some (some { key := some key_7dfgsd89, data := some data_ee77777 }) := by
  have hb : bucket sample_two (some key_7dfgsd89)
      = some [{ key := some key_7dfgsd89, data := some data_ee77777 }] := by
    have ha : sample_two.hash_address sample_two.size (some key_7dfgsd89) = 12 :=
      sample_address_7dfgsd89
    unfold bucket
    simp only [ha]
    rfl
  refine ⟨hb, ?_⟩
  exact ((get_node_first_match sample_two (some key_7dfgsd89) _ hb).2.1 _).2
    ⟨[], [], rfl, by simp, default_compare_refl id _⟩

/-! ## C7: a successful insertion appends at the tail -/

theorem length_flatten_set (table : List (HashmapNode K V)) (a : Nat)
    (chain new_chain : HashmapNode K V) (hc : table[a]? = some chain) :
    (table.set a new_chain).flatten.length + chain.length
      = table.flatten.length + new_chain.length := by
  induction table generalizing a with
  | nil => simp at hc
  | cons c rest ih =>
    cases a with
    | zero =>
      simp only [List.getElem?_cons_zero, Option.some.injEq] at hc
      subst hc
      simp only [List.set_cons_zero, List.flatten_cons, List.length_append]
      omega
    | succ a =>
      simp only [List.getElem?_cons_succ] at hc
      have := ih a hc
      simp only [List.set_cons_succ, List.flatten_cons, List.length_append]
      omega

/-- C7: when `ht_insert(table, k, v)` returns `HASH_SUCCESS`, the chain of bucket
`hash_address(table, k)` afterwards is the chain before the call followed by one new link
holding `(k, v)` (the head when the bucket was empty), the bucket array keeps its length
and every other bucket its chain, and the number of live entries grows by one. -/
theorem insert_appends_at_tail (t t' : HashTable K V) (k : Ptr K) (v : Ptr V)
    (node_ok link_ok : Bool)
    (h : ht_insert t k v node_ok link_ok = some (HASH_SUCCESS, t')) :
    ∃ table table' chain, t.table = some table ∧ t'.table = some table' ∧
      table[t.hash_address t.size k]? = some chain ∧
      table'[t.hash_address t.size k]? = some (chain ++ [{ key := k, data := v }]) ∧
      bucket t' k = some (chain ++ [{ key := k, data := v }]) ∧
      (chain = [] → bucket t' k = some [{ key := k, data := v }]) ∧
      table'.length = table.length ∧
      (∀ i, i ≠ t.hash_address t.size k → table'[i]? = table[i]?) ∧
      (entries t').length = (entries t).length + 1 := by
  obtain ⟨table, chain, ht, hc, _, _, _, _, _, rfl⟩ :=
    ht_insert_success t t' k v node_ok link_ok h
  have hlt : t.hash_address t.size k < table.length := by
    by_contra hge
    rw [List.getElem?_eq_none (Nat.le_of_not_lt hge)] at hc
    cases hc
  have hnew : (table.set (t.hash_address t.size k) (chain ++ [{ key := k, data := v }]))[
      t.hash_address t.size k]? = some (chain ++ [{ key := k, data := v }]) :=
    List.getElem?_set_self hlt
  refine ⟨table, _, chain, ht, rfl, hc, hnew, ?_, ?_, by simp, ?_, ?_⟩
  · simp only [bucket, hnew]
  · rintro rfl
    simpa only [bucket, List.nil_append] using hnew
  · intro i hi
    exact List.getElem?_set_ne (Ne.symm hi)
  · have := length_flatten_set table (t.hash_address t.size k) chain
      (chain ++ [{ key := k, data := v }]) hc
    simp only [entries, ht]
    simp only [List.length_append, List.length_singleton] at this
    omega

/-- Witness of C7: the insertion of "7dfgsd89" into the sample table that holds "hg456h". -/
theorem insert_appends_at_tail_witness :
    ht_insert sample_one (some key_7dfgsd89) (some data_ee77777) true true
      = some (HASH_SUCCESS, sample_two) ∧
    ∃ table table' chain, sample_one.table = some table ∧ sample_two.table = some table' ∧
      table[sample_one.hash_address sample_one.size (some key_7dfgsd89)]? = some chain ∧
      table'[sample_one.hash_address sample_one.size (some key_7dfgsd89)]?
        = some (chain ++ [{ key := some key_7dfgsd89, data := some data_ee77777 }]) ∧
      bucket sample_two (some key_7dfgsd89)
        = some (chain ++ [{ key := some key_7dfgsd89, data := some data_ee77777 }]) ∧
      (chain = [] → bucket sample_two (some key_7dfgsd89)
        = some [{ key := some key_7dfgsd89, data := some data_ee77777 }]) ∧
      table'.length = table.length ∧
      (∀ i, i ≠ sample_one.hash_address sample_one.size (some key_7dfgsd89) →
        table'[i]? = table[i]?) ∧
      (entries sample_two).length = (entries sample_one).length + 1 :=
  ⟨sample_insert_7dfgsd89,
    insert_appends_at_tail sample_one sample_two (some key_7dfgsd89) (some data_ee77777)
      true true sample_insert_7dfgsd89⟩

/-! ## C8: null arguments -/

/-- C8, as amended: on a table whose bucket access for the key is defined, `ht_insert`
called with null data, or with a null key that the address and comparison policies accept,
returns a result that is never `HASH_SUCCESS` and leaves the table unchanged; the result is
`HASH_KEY_ALREADY_ENTERED` when an entry of the bucket compares equal to the key and
`HASH_CANT_ALOC_MEM`, the result of a failed allocation, otherwise. -/
theorem insert_null_argument (t : HashTable K V) (k : Ptr K) (v : Ptr V)
    (node_ok link_ok : Bool) (chain : HashmapNode K V) (hb : bucket t k = some chain)
    (hnull : k = none ∨ v = none) :
    ∃ r, ht_insert t k v node_ok link_ok = some (r, t) ∧ r ≠ HASH_SUCCESS ∧
      (r = HASH_KEY_ALREADY_ENTERED ↔ ∃ e ∈ chain, t.hash_compare e.key k = 0) ∧
      (r ≠ HASH_KEY_ALREADY_ENTERED → r = HASH_CANT_ALOC_MEM) := by
  obtain ⟨table, ht, hc⟩ := (bucket_eq_some t k chain).1 hb
  have hnew : ht_new_entry k v node_ok link_ok = none := by
    cases hn : ht_new_entry k v node_ok link_ok with
    | none => rfl
    | some new_node =>
      obtain ⟨h1, h2, _⟩ := (ht_new_entry_eq_some k v node_ok link_ok new_node).1 hn
      rcases hnull with h | h
      · exact absurd h h1
      · exact absurd h h2
  rw [ht_insert_eq t k v node_ok link_ok table chain ht hc]
  by_cases hl : insert_loop t.hash_compare k chain = true
  · refine ⟨HASH_KEY_ALREADY_ENTERED, by simp [hl], by decide, ?_, fun h => absurd rfl h⟩
    simp only [true_iff]
    exact (insert_loop_eq_true _ _ _).1 hl
  · refine ⟨HASH_CANT_ALOC_MEM, by simp [hl, hnew], by decide, ?_, fun _ => rfl⟩
    have hno : ¬ ∃ e ∈ chain, t.hash_compare e.key k = 0 := fun h =>
      hl ((insert_loop_eq_true _ _ _).2 h)
    simp [hno, HASH_CANT_ALOC_MEM, HASH_KEY_ALREADY_ENTERED]

/-- Witness of C8 as amended: "hg456h" is inserted with null data into the empty sample
table. -/
theorem insert_null_argument_witness :
    bucket sample_empty (some key_hg456h) = some [] ∧
    ∃ r, ht_insert sample_empty (some key_hg456h) none true true = some (r, sample_empty) ∧
      r ≠ HASH_SUCCESS ∧
      (r = HASH_KEY_ALREADY_ENTERED ↔
        ∃ e ∈ ([] : HashmapNode Str Str),
          sample_empty.hash_compare e.key (some key_hg456h) = 0) ∧
      (r ≠ HASH_KEY_ALREADY_ENTERED → r = HASH_CANT_ALOC_MEM) :=
  have hb : bucket sample_empty (some key_hg456h) = some [] := by
    have ha : sample_empty.hash_address sample_empty.size (some key_hg456h) = 17 :=
      sample_address_hg456h
    unfold bucket
    simp only [ha]
    rfl
  ⟨hb, insert_null_argument sample_empty (some key_hg456h) none true true [] hb (Or.inr rfl)⟩

/-- Counterexample to C8 as stated: on the empty sample table (23 buckets, default
policies), `ht_insert` with the key "hg456h" and null data returns `HASH_CANT_ALOC_MEM`,
the very result it returns when the allocation of the chain link fails, so the null
argument gets no result distinct from the allocation failure. -/
theorem null_data_counterexample :
    ht_insert sample_empty (some key_hg456h) none true true
      = some (HASH_CANT_ALOC_MEM, sample_empty) ∧
    ht_insert sample_empty (some key_hg456h) (some data_hh) true false
      = some (HASH_CANT_ALOC_MEM, sample_empty) := by
  have ha : sample_empty.hash_address sample_empty.size (some key_hg456h) = 17 :=
    sample_address_hg456h
  constructor
  · unfold ht_insert
    simp only [ha]
    rfl
  · unfold ht_insert
    simp only [ha]
    rfl

/-! ## C9: a failed insertion changes nothing -/

/-- C9: whenever `ht_insert` returns a value other than `HASH_SUCCESS`, that value is
`HASH_KEY_ALREADY_ENTERED` (duplicate key) or `HASH_CANT_ALOC_MEM` (null key or data, or
a failed allocation of the entry or of the chain link), and the table after the call is
the table before it: every bucket chain is as it was. -/
theorem insert_failure_changes_nothing (t t' : HashTable K V) (k : Ptr K) (v : Ptr V)
    (node_ok link_ok : Bool) (r : Int)
    (h : ht_insert t k v node_ok link_ok = some (r, t')) (hr : r ≠ HASH_SUCCESS) :
    t' = t ∧ t'.table = t.table ∧
      (r = HASH_KEY_ALREADY_ENTERED ∨ r = HASH_CANT_ALOC_MEM) := by
  obtain ⟨table, chain, ht, hc⟩ := ht_insert_defined t t' k v node_ok link_ok r h
  rw [ht_insert_eq t k v node_ok link_ok table chain ht hc] at h
  by_cases hl : insert_loop t.hash_compare k chain = true
  · simp only [hl, if_true, Option.some.injEq, Prod.mk.injEq] at h
    exact ⟨h.2.symm, by rw [h.2], Or.inl h.1.symm⟩
  · rw [if_neg hl] at h
    cases hn : ht_new_entry k v node_ok link_ok with
    | none =>
      simp only [hn, Option.some.injEq, Prod.mk.injEq] at h
      exact ⟨h.2.symm, by rw [h.2], Or.inr h.1.symm⟩
    | some new_node =>
      simp only [hn, Option.some.injEq, Prod.mk.injEq] at h
      exact absurd h.1.symm hr

/-- Witness of C9: the allocation of the chain link fails while "7dfgsd89" is inserted into
the sample table that holds "hg456h". -/
theorem insert_failure_changes_nothing_witness :
    ht_insert sample_one (some key_7dfgsd89) (some data_ee77777) true false
      = some (HASH_CANT_ALOC_MEM, sample_one) ∧
    HASH_CANT_ALOC_MEM ≠ HASH_SUCCESS ∧
    sample_one = sample_one ∧ sample_one.table = sample_one.table ∧
      (HASH_CANT_ALOC_MEM = HASH_KEY_ALREADY_ENTERED ∨
        HASH_CANT_ALOC_MEM = HASH_CANT_ALOC_MEM) :=
  have h : ht_insert sample_one (some key_7dfgsd89) (some data_ee77777) true false
      = some (HASH_CANT_ALOC_MEM, sample_one) := by
    have ha : sample_one.hash_address sample_one.size (some key_7dfgsd89) = 12 :=
      sample_address_7dfgsd89
    unfold ht_insert
    simp only [ha]
    rfl
  have hr : HASH_CANT_ALOC_MEM ≠ HASH_SUCCESS := by decide
  ⟨h, hr, insert_failure_changes_nothing sample_one sample_one (some key_7dfgsd89)
    (some data_ee77777) true false HASH_CANT_ALOC_MEM h hr⟩

/-! ## C10: a zero size is rejected -/

/-- C10: `ht_create` called with `size_table = 0` returns `HASH_INVALID_SIZE` (-2) whatever
the three policy arguments are and whether or not an allocation would succeed, and the
descriptor is left as it was passed in. -/
theorem create_zero_size_rejected (txt : K → List Int) (descriptor : HashTable K V)
    (hash_address : Ptr (Hash_address K)) (hash_compare : Ptr (Hash_key_compare K))
    (hash_node_delete : Ptr (Hash_node_delete K V)) (malloc_ok : Bool) :
    ht_create txt descriptor 0 hash_address hash_compare hash_node_delete malloc_ok
      = some (HASH_INVALID_SIZE, descriptor) ∧ HASH_INVALID_SIZE = -2 :=
  ⟨rfl, rfl⟩

/-! ## C11: a negative size -/

theorem to_unsigned_negative (n : Int) (hneg : n < 0) (hmin : -2147483648 ≤ n) :
    (to_unsigned n : Int) = n + 4294967296 := by
  unfold to_unsigned
  simp only [UINT_RANGE]
  omega

/-- C11, as amended: `size_table` is an `unsigned int`, so a negative `int` count arrives
as a value above `INT_MAX` (-1 as 4294967295) and is not rejected: `ht_create` goes on
to the allocation of the bucket array, returns `HASH_CANT_ALOC_MEM` with `NULL` stored
in the descriptor when that allocation fails, and never returns `HASH_INVALID_SIZE`. -/
theorem create_negative_size (txt : K → List Int) (descriptor : HashTable K V) (n : Int)
    (hash_address : Ptr (Hash_address K)) (hash_compare : Ptr (Hash_key_compare K))
    (hash_node_delete : Ptr (Hash_node_delete K V))
    (hneg : n < 0) (hmin : -2147483648 ≤ n) :
    INT_MAX < to_unsigned n ∧
    ht_create txt descriptor (to_unsigned n) hash_address hash_compare hash_node_delete false
      = some (HASH_CANT_ALOC_MEM, { descriptor with table := none }) ∧
    ∀ malloc_ok r t',
      ht_create txt descriptor (to_unsigned n) hash_address hash_compare hash_node_delete
        malloc_ok = some (r, t') →
      r = HASH_CANT_ALOC_MEM ∧ r ≠ HASH_INVALID_SIZE := by
  have hu := to_unsigned_negative n hneg hmin
  have hbig : INT_MAX < to_unsigned n := by
    simp only [INT_MAX]
    omega
  have hpos : ¬ to_unsigned n < 1 := by
    simp only [INT_MAX] at hbig
    omega
  refine ⟨hbig, by simp [ht_create, hpos], ?_⟩
  intro malloc_ok r t' h
  cases malloc_ok with
  | false =>
    simp only [ht_create, hpos, if_false, if_true, Option.some.injEq, Prod.mk.injEq] at h
    exact ⟨h.1.symm, by rw [← h.1]; decide⟩
  | true => simp [ht_create, hpos, hbig] at h

/-- Witness of C11 as amended: the count -1. -/
theorem create_negative_size_witness :
    (-1 : Int) < 0 ∧ (-2147483648 : Int) ≤ -1 ∧ INT_MAX < to_unsigned (-1) ∧
    ht_create id sample_empty (to_unsigned (-1)) none none none false
      = some (HASH_CANT_ALOC_MEM, { sample_empty with table := none }) :=
  have h := create_negative_size id sample_empty (-1) none none none (by decide) (by decide)
  ⟨by decide, by decide, h.1, h.2.1⟩

/-- Counterexample to C11 as stated: the count -1 reaches `ht_create` as 4294967295, and
the call returns `HASH_CANT_ALOC_MEM`, not `HASH_INVALID_SIZE`, after the allocation was
tried and `NULL` was stored in the descriptor. -/
theorem negative_size_counterexample :
    to_unsigned (-1) = 4294967295 ∧
    ht_create id sample_empty (to_unsigned (-1)) none none none false
      = some (HASH_CANT_ALOC_MEM, { sample_empty with table := none }) ∧
    HASH_CANT_ALOC_MEM ≠ HASH_INVALID_SIZE ∧
    ({ sample_empty with table := none } : HashTable Str Str).table ≠ sample_empty.table := by
  refine ⟨by decide, rfl, by decide, ?_⟩
  simp [sample_empty, sample]

/-! ## C12: the table a successful creation yields -/

theorem ht_create_success_iff (txt : K → List Int) (descriptor created : HashTable K V)
    (size_table : Nat) (hash_address : Ptr (Hash_address K))
    (hash_compare : Ptr (Hash_key_compare K))
    (hash_node_delete : Ptr (Hash_node_delete K V)) (malloc_ok : Bool) :
    ht_create txt descriptor size_table hash_address hash_compare hash_node_delete malloc_ok
      = some (HASH_SUCCESS, created) ↔
    1 ≤ size_table ∧ size_table ≤ INT_MAX ∧ malloc_ok = true ∧
    created =
      { table := some (List.replicate size_table []),
        size := size_table,
        hash_compare := match hash_compare with
          | none => default_compare txt
          | some f => f,
        hash_address := match hash_address with
          | none => default_hash_addr txt
          | some f => f,
        hash_node_delete := match hash_node_delete with
          | none => default_delete_node
          | some f => f } := by
  unfold ht_create
  by_cases h1 : size_table < 1
  · simp only [h1, if_true, Option.some.injEq, Prod.mk.injEq]
    constructor
    · intro h
      exact absurd h.1 (by decide)
    · intro h
      omega
  · rw [if_neg h1]
    cases malloc_ok with
    | false =>
      simp only [if_true, Option.some.injEq, Prod.mk.injEq]
      constructor
      · intro h
        exact absurd h.1 (by decide)
      · intro h
        exact absurd h.2.2.1 (by decide)
    | true =>
      rw [if_neg (by decide : ¬ (true = false))]
      by_cases h3 : INT_MAX < size_table
      · simp only [h3, if_true]
        constructor
        · intro h
          cases h
        · intro h
          omega
      · simp only [h3, if_false, Option.some.injEq, Prod.mk.injEq, true_and]
        constructor
        · intro h
          exact ⟨by omega, by omega, h.symm⟩
        · intro h
          exact h.2.2.symm

/-- The creation postcondition for the sizes the `int` loop counter can reach: with
`1 ≤ size_table ≤ INT_MAX` and a successful allocation, `ht_create` returns `HASH_SUCCESS`
and a table of `size_table` empty buckets, on which a lookup whose address is in range
returns `NULL` and a deletion returns `HASH_ENTRY_NOT_FOUND`. -/
theorem ht_create_postcondition (txt : K → List Int) (descriptor : HashTable K V)
    (size_table : Nat) (hash_address : Ptr (Hash_address K))
    (hash_compare : Ptr (Hash_key_compare K))
    (hash_node_delete : Ptr (Hash_node_delete K V))
    (h1 : 1 ≤ size_table) (h2 : size_table ≤ INT_MAX) :
    ∃ created,
      ht_create txt descriptor size_table hash_address hash_compare hash_node_delete true
        = some (HASH_SUCCESS, created) ∧
      created.size = size_table ∧
      created.table = some (List.replicate size_table []) ∧
      (∀ k, created.hash_address created.size k < created.size →
        ht_get_node created k = some none ∧
        ht_delete_entry created k = some (HASH_ENTRY_NOT_FOUND, created, [])) := by
  refine ⟨_, (ht_create_success_iff txt descriptor _ size_table hash_address hash_compare
    hash_node_delete true).2 ⟨h1, h2, rfl, rfl⟩, rfl, rfl, ?_⟩
  intro k hk
  have hc : (List.replicate size_table ([] : HashmapNode K V))[
      (match hash_address with
        | none => default_hash_addr txt
        | some f => f) size_table k]? = some [] := by
    rw [List.getElem?_replicate, if_pos hk]
  constructor
  · rw [ht_get_node_eq]
    simp only [bucket, hc, Option.map_some']
    rfl
  · rw [ht_delete_entry_eq _ k _ [] rfl hc]
    rfl

/-- C12, the failing input: with `size_table = 2147483649` and a successful allocation, the
`int` counter of the initialisation loop of `ht_create` is incremented past `INT_MAX`; the
call has no defined result. -/
theorem create_size_above_int_max (txt : K → List Int) (descriptor : HashTable K V)
    (hash_address : Ptr (Hash_address K)) (hash_compare : Ptr (Hash_key_compare K))
    (hash_node_delete : Ptr (Hash_node_delete K V)) :
    ht_create txt descriptor 2147483649 hash_address hash_compare hash_node_delete true
      = none := by
  simp [ht_create, INT_MAX]

/-! ## C13: the default address is a bucket index -/

/-- C13: for every `size >= 1` and every key (of any length and any character values),
`default_hash_addr` returns an address below `size`, so that on a table of `size` buckets
using it the bucket access is defined; with `size = 1` every key maps to bucket 0. -/
theorem default_address_in_range (txt : K → List Int) (size : Nat) (p : K)
    (hsize : 1 ≤ size) :
    default_hash_addr txt size (some p) < size ∧
    (size = 1 → default_hash_addr txt size (some p) = 0) ∧
    ∀ (t : HashTable K V) (table : List (HashmapNode K V)),
      t.hash_address = default_hash_addr txt → t.size = size → t.table = some table →
      table.length = size → ∃ chain, bucket t (some p) = some chain := by
  have hlt := default_hash_addr_lt txt size (some p) hsize
  refine ⟨hlt, fun h1 => by omega, ?_⟩
  intro t table haddr hs ht hlen
  have hlt' : default_hash_addr txt size (some p) < table.length := by
    rw [hlen]
    exact hlt
  refine ⟨table[default_hash_addr txt size (some p)], ?_⟩
  simp only [bucket, ht, haddr, hs]
  exact List.getElem?_eq_getElem hlt'

/-- Witness of C13: the key "hg456h" on 23 buckets. -/
theorem default_address_in_range_witness :
    1 ≤ 23 ∧ default_hash_addr id 23 (some key_hg456h) < 23 ∧
    ∃ chain, bucket sample_empty (some key_hg456h) = some chain :=
  have h := default_address_in_range id 23 key_hg456h (by decide)
  ⟨by decide, h.1, (h.2.2 : ∀ (t : HashTable Str Str) (table : List (HashmapNode Str Str)),
      t.hash_address = default_hash_addr id → t.size = 23 → t.table = some table →
      table.length = 23 → ∃ chain, bucket t (some key_hg456h) = some chain)
    sample_empty (List.replicate 23 []) rfl rfl rfl (List.length_replicate _ _)⟩

/-! ## C14: the default address and the recurrence of the specification -/

theorem foldl_range_getD {α : Type} (g : α → Int → α) (l : List Int) (init : α) :
    (List.range l.length).foldl (fun a i => g a (l.getD i 0)) init = l.foldl g init := by
  induction l generalizing init with
  | nil => rfl
  | cons c l ih =>
    rw [List.length_cons, List.range_succ_eq_map, List.foldl_cons, List.foldl_map]
    simpa using ih (g init c)

theorem to_int_of_le (n : Nat) (h : n ≤ INT_MAX) : (to_int n).toNat = n := by
  unfold to_int
  simp only [INT_MAX, UINT_RANGE] at h ⊢
  have hmod : n % 4294967296 = n := Nat.mod_eq_of_lt (by omega)
  rw [hmod, if_pos h]
  simp

theorem wrapped_step_eq (size value : Nat) (c : Int) (hsize : 1 ≤ size)
    (hmax : size < UINT_RANGE) :
    (((value * to_unsigned c) % UINT_RANGE) % size + 1) % UINT_RANGE
      = ((value * to_unsigned c) % UINT_RANGE) % size + 1 := by
  have hx : (value * to_unsigned c) % UINT_RANGE % size < size := Nat.mod_lt _ hsize
  exact Nat.mod_eq_of_lt (by omega)

theorem default_hash_addr_eq_wrapped (txt : K → List Int) (size : Nat) (p : K)
    (hsize : 1 ≤ size) (hmax : size < UINT_RANGE) (hlen : strlen (txt p) ≤ INT_MAX) :
    default_hash_addr txt size (some p) = wrapped_hash_addr size (c_string (txt p)) := by
  unfold default_hash_addr wrapped_hash_addr
  simp only [key_text, to_int_of_le _ hlen]
  have hfold : (List.range (strlen (txt p))).foldl
      (fun address i =>
        (((address * to_unsigned ((txt p).getD i 0)) % UINT_RANGE) % size + 1) % UINT_RANGE) 1
      = (c_string (txt p)).foldl
        (fun value c => ((value * to_unsigned c) % UINT_RANGE) % size + 1) 1 := by
    rw [← foldl_range_getD]
    unfold strlen
    apply foldl_range_congr
    intro a i hi
    rw [wrapped_step_eq size a _ hsize hmax]
    unfold c_string at hi ⊢
    rw [getD_takeWhile _ _ i hi]
  rw [hfold]
  have hinv : 1 ≤ (c_string (txt p)).foldl
      (fun value c => ((value * to_unsigned c) % UINT_RANGE) % size + 1) 1 ∧
      (c_string (txt p)).foldl
      (fun value c => ((value * to_unsigned c) % UINT_RANGE) % size + 1) 1 ≤ size := by
    refine foldl_invariant (fun a => 1 ≤ a ∧ a ≤ size) _ _ 1 ⟨Nat.le_refl 1, hsize⟩ ?_
    intro a c _
    have hx : (a * to_unsigned c) % UINT_RANGE % size < size := Nat.mod_lt _ hsize
    omega
  generalize (c_string (txt p)).foldl
      (fun value c => ((value * to_unsigned c) % UINT_RANGE) % size + 1) 1 = address at hinv
  simp only [UINT_RANGE] at hmax ⊢
  omega

theorem to_unsigned_of_byte (c : Int) (h0 : 0 ≤ c) (h1 : c ≤ 255) :
    ((to_unsigned c : Nat) : Int) = c ∧ to_unsigned c ≤ 255 := by
  unfold to_unsigned
  simp only [UINT_RANGE]
  omega

theorem wrapped_fold_eq_spec (size : Nat) (codes : List Int) (value : Nat)
    (hsize : 1 ≤ size) (hmax : size * 255 < UINT_RANGE)
    (hcodes : ∀ c ∈ codes, 0 ≤ c ∧ c ≤ 255) (hv1 : 1 ≤ value) (hv2 : value ≤ size) :
    ((codes.foldl (fun value c => ((value * to_unsigned c) % UINT_RANGE) % size + 1) value
      : Nat) : Int)
      = codes.foldl (fun value c => (value * c) % (size : Int) + 1) (value : Int) ∧
    1 ≤ codes.foldl (fun value c => ((value * to_unsigned c) % UINT_RANGE) % size + 1)
      value := by
  induction codes generalizing value with
  | nil => exact ⟨rfl, hv1⟩
  | cons c codes ih =>
    obtain ⟨hc0, hc1⟩ := hcodes c (by simp)
    obtain ⟨hcast, hbyte⟩ := to_unsigned_of_byte c hc0 hc1
    have hprod : value * to_unsigned c < UINT_RANGE :=
      Nat.lt_of_le_of_lt (Nat.mul_le_mul hv2 hbyte) hmax
    have hx : (value * to_unsigned c) % UINT_RANGE % size < size := Nat.mod_lt _ hsize
    have hstep : (((value * to_unsigned c) % UINT_RANGE % size + 1 : Nat) : Int)
        = ((value : Int) * c) % (size : Int) + 1 := by
      rw [Nat.mod_eq_of_lt hprod]
      push_cast
      rw [hcast]
    simp only [List.foldl_cons]
    rw [← hstep]
    exact ih _ (fun c' hc' => hcodes c' (by simp [hc'])) (by omega) (by omega)

/-- C14, as amended: for every bucket count `1 <= size < 2^32` and every text key of at
most `INT_MAX` characters with character codes `c_1..c_n`, `default_hash_addr` returns
`v_n - 1` where `v_0 = 1` and `v_i = (((v_(i-1) * u_i) mod 2^32) mod size) + 1`, `u_i`
being `c_i` converted to `unsigned int`; this is the recurrence of the specification over
the integers when the codes lie in `0..255` and `size * 255 < 2^32`; the empty key maps to
address 0. -/
theorem default_address_recurrence (txt : K → List Int) (size : Nat) (p : K)
    (hsize : 1 ≤ size) (hmax : size < UINT_RANGE) (hlen : strlen (txt p) ≤ INT_MAX) :
    default_hash_addr txt size (some p) = wrapped_hash_addr size (c_string (txt p)) ∧
    ((∀ c ∈ c_string (txt p), 0 ≤ c ∧ c ≤ 255) → size * 255 < UINT_RANGE →
      ((default_hash_addr txt size (some p) : Nat) : Int)
        = spec_hash_addr size (c_string (txt p))) ∧
    (c_string (txt p) = [] → default_hash_addr txt size (some p) = 0) := by
  have hw := default_hash_addr_eq_wrapped txt size p hsize hmax hlen
  refine ⟨hw, ?_, ?_⟩
  · intro hcodes hno
    obtain ⟨heq, hpos⟩ := wrapped_fold_eq_spec size (c_string (txt p)) 1 hsize hno hcodes
      (Nat.le_refl 1) hsize
    rw [hw]
    unfold wrapped_hash_addr spec_hash_addr
    rw [Nat.cast_one] at heq
    rw [← heq, Nat.cast_sub hpos]
    rfl
  · intro hnil
    rw [hw, hnil]
    rfl

/-- Witness of C14 as amended: the key "hg456h" on 23 buckets. -/
theorem default_address_recurrence_witness :
    1 ≤ 23 ∧ 23 < UINT_RANGE ∧ strlen (id key_hg456h) ≤ INT_MAX ∧
    default_hash_addr id 23 (some key_hg456h) = wrapped_hash_addr 23 (c_string key_hg456h) ∧
    ((default_hash_addr id 23 (some key_hg456h) : Nat) : Int)
      = spec_hash_addr 23 (c_string key_hg456h) :=
  have h := default_address_recurrence id 23 key_hg456h (by decide) (by decide) (by decide)
  ⟨by decide, by decide, by decide, h.1, h.2.1 (by decide) (by decide)⟩

/-- Counterexample to C14 as stated: on 100000000 buckets the key "zzzzzz" has the default
address 59437750, while the recurrence over the integers gives 54405046: the product of
the running value and the fifth character exceeds 2^32 and wraps. -/
theorem integer_recurrence_counterexample :
    default_hash_addr id 100000000 (some key_zzzzzz) = 59437750 ∧
    spec_hash_addr 100000000 (c_string key_zzzzzz) = 54405046 := by
  constructor <;> decide

/-! ## C15: unlinking at every chain position -/

/-- C15: when the chain of `k`'s bucket holds a link matching `k`, `ht_delete_entry(table,
k)` returns `HASH_ENTRY_DELETED` and leaves that bucket's chain equal to the old chain
without its first matching link, wherever that link stood (head when `pre` is empty, tail
when `post` is empty, middle otherwise): the links before and after it keep their order
and contents, and every other bucket keeps its chain. -/
theorem delete_entry_unlinks_first_match (t : HashTable K V) (k : Ptr K)
    (chain : HashmapNode K V) (hb : bucket t k = some chain)
    (hmatch : ∃ n ∈ chain, t.hash_compare n.key k = 0) :
    ∃ pre found post table t',
      chain = pre ++ found :: post ∧
      (∀ n ∈ pre, t.hash_compare n.key k ≠ 0) ∧ t.hash_compare found.key k = 0 ∧
      t.table = some table ∧
      ht_delete_entry t k = some (HASH_ENTRY_DELETED, t', [found]) ∧
      t'.table = some (table.set (t.hash_address t.size k) (pre ++ post)) ∧
      bucket t' k = some (pre ++ post) ∧
      (∀ i, i ≠ t.hash_address t.size k →
        (table.set (t.hash_address t.size k) (pre ++ post))[i]? = table[i]?) ∧
      (table.set (t.hash_address t.size k) (pre ++ post)).length = table.length := by
  obtain ⟨table, ht, hc⟩ := (bucket_eq_some t k chain).1 hb
  obtain ⟨n, hn, hz⟩ := hmatch
  cases hg : get_node_loop t.hash_compare k chain with
  | none => exact absurd hz ((get_node_loop_eq_none _ _ _).1 hg n hn)
  | some found =>
    obtain ⟨pre, post, hchain, hpre, hfound⟩ := (get_node_loop_eq_some _ _ _ _).1 hg
    have hlt : t.hash_address t.size k < table.length := by
      by_contra hge
      rw [List.getElem?_eq_none (Nat.le_of_not_lt hge)] at hc
      cases hc
    refine ⟨pre, found, post, table,
      { t with table := some (table.set (t.hash_address t.size k) (pre ++ post)) },
      hchain, hpre, hfound, ht, ?_, rfl, ?_, ?_, by simp⟩
    · rw [ht_delete_entry_eq t k table chain ht hc]
      simp only [hg]
      rw [hchain, eraseP_first_match _ _ _ _ _ hpre hfound]
    · simp only [bucket]
      exact List.getElem?_set_self hlt
    · intro i hi
      exact List.getElem?_set_ne (Ne.symm hi)

/-- Witness of C15: the key 5 is deleted from the middle of the chain 1, 5, 9 (and, for the
other positions, the key 1 from its head and the key 9 from its tail). -/
theorem delete_entry_unlinks_first_match_witness :
    (ht_delete_entry (near_table [{ key := some 1, data := some 10 },
        { key := some 5, data := some 50 }, { key := some 9, data := some 90 }]) (some 5)
      = some (HASH_ENTRY_DELETED,
          near_table [{ key := some 1, data := some 10 }, { key := some 9, data := some 90 }],
          [{ key := some 5, data := some 50 }])) ∧
    (ht_delete_entry (near_table [{ key := some 1, data := some 10 },
        { key := some 5, data := some 50 }, { key := some 9, data := some 90 }]) (some 1)
      = some (HASH_ENTRY_DELETED,
          near_table [{ key := some 5, data := some 50 }, { key := some 9, data := some 90 }],
          [{ key := some 1, data := some 10 }])) ∧
    (ht_delete_entry (near_table [{ key := some 1, data := some 10 },
        { key := some 5, data := some 50 }, { key := some 9, data := some 90 }]) (some 9)
      = some (HASH_ENTRY_DELETED,
          near_table [{ key := some 1, data := some 10 }, { key := some 5, data := some 50 }],
          [{ key := some 9, data := some 90 }])) ∧
    ∃ pre found post table t',
      [({ key := some 1, data := some 10 } : Node Nat Nat),
        { key := some 5, data := some 50 }, { key := some 9, data := some 90 }]
        = pre ++ found :: post ∧
      (∀ n ∈ pre, near_compare n.key (some 5) ≠ 0) ∧ near_compare found.key (some 5) = 0 ∧
      (near_table [{ key := some 1, data := some 10 },
        { key := some 5, data := some 50 }, { key := some 9, data := some 90 }]).table
        = some table ∧
      ht_delete_entry (near_table [{ key := some 1, data := some 10 },
        { key := some 5, data := some 50 }, { key := some 9, data := some 90 }]) (some 5)
        = some (HASH_ENTRY_DELETED, t', [found]) ∧
      t'.table = some (table.set 0 (pre ++ post)) ∧
      bucket t' (some 5) = some (pre ++ post) ∧
      (∀ i, i ≠ 0 → (table.set 0 (pre ++ post))[i]? = table[i]?) ∧
      (table.set 0 (pre ++ post)).length = table.length :=
  ⟨rfl, rfl, rfl,
    delete_entry_unlinks_first_match
      (near_table [{ key := some 1, data := some 10 },
        { key := some 5, data := some 50 }, { key := some 9, data := some 90 }]) (some 5)
      [{ key := some 1, data := some 10 }, { key := some 5, data := some 50 },
        { key := some 9, data := some 90 }] rfl
      ⟨{ key := some 5, data := some 50 }, by simp, rfl⟩⟩

/-! ## C16: the scenario of `main.c` -/

theorem sample_address_i46fh5LL :
    default_hash_addr id 23 (some key_i46fh5LL) = 5 := by decide

theorem sample_insert_i46fh5LL :
    ht_insert sample_two (some key_i46fh5LL) (some data_ii) true true
      = some (HASH_SUCCESS, sample_three) := by
  have ha : sample_two.hash_address sample_two.size (some key_i46fh5LL) = 5 :=
    sample_address_i46fh5LL
  unfold ht_insert
  simp only [ha]
  rfl

theorem sample_three_delete_hg456h :
    ht_delete_entry sample_three (some key_hg456h)
      = some (HASH_ENTRY_DELETED, sample_three_deleted,
          [{ key := some key_hg456h, data := some data_hh }]) := by
  have ha : sample_three.hash_address sample_three.size (some key_hg456h) = 17 :=
    sample_address_hg456h
  unfold ht_delete_entry
  simp only [ha]
  simp [sample_three, sample, sample_three_deleted, default_compare_refl]

/-- C16: on the table created with size 23 and the three default policies, the insertions
of ("hg456h","hh"), ("7dfgsd89","ee77777") and ("i46fh5LL","ii"), in that order, each
return `HASH_SUCCESS`; then `ht_get_node("7dfgsd89")` returns a node whose data is
"ee77777", `ht_delete_entry("hg456h")` returns `HASH_ENTRY_DELETED`, and afterwards
`ht_get_node("hg456h")` returns `NULL` while `ht_get_node("i46fh5LL")` returns a node
whose data is "ii". -/
theorem main_scenario (descriptor : HashTable Str Str) :
    ht_create id descriptor 23 none none none true = some (HASH_SUCCESS, sample_empty) ∧
    ht_insert sample_empty (some key_hg456h) (some data_hh) true true
      = some (HASH_SUCCESS, sample_one) ∧
    ht_insert sample_one (some key_7dfgsd89) (some data_ee77777) true true
      = some (HASH_SUCCESS, sample_two) ∧
    ht_insert sample_two (some key_i46fh5LL) (some data_ii) true true
      = some (HASH_SUCCESS, sample_three) ∧
    ht_get_node sample_three (some key_7dfgsd89)
      = some (some { key := some key_7dfgsd89, data := some data_ee77777 }) ∧
    ht_delete_entry sample_three (some key_hg456h)
      = some (HASH_ENTRY_DELETED, sample_three_deleted,
          [{ key := some key_hg456h, data := some data_hh }]) ∧
    ht_get_node sample_three_deleted (some key_hg456h) = some none ∧
    ht_get_node sample_three_deleted (some key_i46fh5LL)
      = some (some { key := some key_i46fh5LL, data := some data_ii }) :=
  ⟨sample_create descriptor, sample_insert_hg456h, sample_insert_7dfgsd89,
    sample_insert_i46fh5LL, by decide, sample_three_delete_hg456h, by decide, by decide⟩

/-! ## C17: size and policies never change -/

theorem ht_insert_frame (t t' : HashTable K V) (key : Ptr K) (data : Ptr V)
    (node_ok link_ok : Bool) (r : Int)
    (h : ht_insert t key data node_ok link_ok = some (r, t')) :
    t'.size = t.size ∧ t'.hash_address = t.hash_address ∧
      t'.hash_compare = t.hash_compare ∧ t'.hash_node_delete = t.hash_node_delete ∧
      bucket_count t' = bucket_count t := by
  obtain ⟨table, chain, ht, hc⟩ := ht_insert_defined t t' key data node_ok link_ok r h
  rw [ht_insert_eq t key data node_ok link_ok table chain ht hc] at h
  by_cases hl : insert_loop t.hash_compare key chain = true
  · simp only [hl, if_true, Option.some.injEq, Prod.mk.injEq] at h
    rw [← h.2]
    exact ⟨rfl, rfl, rfl, rfl, rfl⟩
  · rw [if_neg hl] at h
    cases hn : ht_new_entry key data node_ok link_ok with
    | none =>
      simp only [hn, Option.some.injEq, Prod.mk.injEq] at h
      rw [← h.2]
      exact ⟨rfl, rfl, rfl, rfl, rfl⟩
    | some new_node =>
      simp only [hn, Option.some.injEq, Prod.mk.injEq] at h
      rw [← h.2]
      exact ⟨rfl, rfl, rfl, rfl, by simp [bucket_count, ht]⟩

theorem ht_delete_entry_frame (t t' : HashTable K V) (key : Ptr K) (r : Int)
    (log : List (Node K V)) (h : ht_delete_entry t key = some (r, t', log)) :
    t'.size = t.size ∧ t'.hash_address = t.hash_address ∧
      t'.hash_compare = t.hash_compare ∧ t'.hash_node_delete = t.hash_node_delete ∧
      bucket_count t' = bucket_count t := by
  obtain ⟨table, chain, ht, hc⟩ := ht_delete_entry_defined t t' key r log h
  rw [ht_delete_entry_eq t key table chain ht hc] at h
  cases hg : get_node_loop t.hash_compare key chain with
  | none =>
    simp only [hg, Option.some.injEq, Prod.mk.injEq] at h
    rw [← h.2.1]
    exact ⟨rfl, rfl, rfl, rfl, rfl⟩
  | some found =>
    simp only [hg, Option.some.injEq, Prod.mk.injEq] at h
    rw [← h.2.1]
    exact ⟨rfl, rfl, rfl, rfl, by simp [bucket_count, ht]⟩

theorem apply_call_frame (t t' : HashTable K V) (call : Call K V) (log : List (Node K V))
    (h : apply_call t call = some (t', log)) :
    t'.size = t.size ∧ t'.hash_address = t.hash_address ∧
      t'.hash_compare = t.hash_compare ∧ t'.hash_node_delete = t.hash_node_delete ∧
      bucket_count t' = bucket_count t := by
  cases call with
  | insert key data node_ok link_ok =>
    simp only [apply_call, Option.map_eq_some', Prod.mk.injEq] at h
    obtain ⟨⟨r, t1⟩, hr, rfl, _⟩ := h
    exact ht_insert_frame t t1 key data node_ok link_ok r hr
  | get_node key =>
    simp only [apply_call, Option.map_eq_some', Prod.mk.injEq] at h
    obtain ⟨_, _, rfl, _⟩ := h
    exact ⟨rfl, rfl, rfl, rfl, rfl⟩
  | delete_entry key =>
    simp only [apply_call, Option.map_eq_some', Prod.mk.injEq] at h
    obtain ⟨⟨r, t1, log1⟩, hr, rfl, _⟩ := h
    exact ht_delete_entry_frame t t1 key r log1 hr

theorem apply_calls_frame (calls : List (Call K V)) (t t' : HashTable K V)
    (log : List (Node K V)) (h : apply_calls t calls = some (t', log)) :
    t'.size = t.size ∧ t'.hash_address = t.hash_address ∧
      t'.hash_compare = t.hash_compare ∧ t'.hash_node_delete = t.hash_node_delete ∧
      bucket_count t' = bucket_count t := by
  induction calls generalizing t log with
  | nil =>
    simp only [apply_calls, Option.some.injEq, Prod.mk.injEq] at h
    rw [← h.1]
    exact ⟨rfl, rfl, rfl, rfl, rfl⟩
  | cons call calls ih =>
    simp only [apply_calls] at h
    cases h1 : apply_call t call with
    | none => simp [h1] at h
    | some r1 =>
      obtain ⟨t1, log1⟩ := r1
      simp only [h1] at h
      cases h2 : apply_calls t1 calls with
      | none => simp [h2] at h
      | some r2 =>
        obtain ⟨t2, log2⟩ := r2
        simp only [h2, Option.some.injEq, Prod.mk.injEq] at h
        obtain ⟨a1, a2, a3, a4, a5⟩ := apply_call_frame t t1 call log1 h1
        obtain ⟨h21, _⟩ := h
        subst h21
        obtain ⟨b1, b2, b3, b4, b5⟩ := ih t1 log2 h2
        exact ⟨b1.trans a1, b2.trans a2, b3.trans a3, b4.trans a4, b5.trans a5⟩

/-- C17: after a successful `ht_create` and any sequence of `ht_insert`, `ht_get_node` and
`ht_delete_entry` calls, whatever each returned, the `size` field is the `size_table`
given at creation and is at least 1, the bucket array has `size` buckets, and the three
policies are those bound at creation: the caller's function, or the default where the
caller passed `NULL`. -/
theorem size_and_policies_immutable (txt : K → List Int) (descriptor created t : HashTable K V)
    (size_table : Nat) (hash_address : Ptr (Hash_address K))
    (hash_compare : Ptr (Hash_key_compare K))
    (hash_node_delete : Ptr (Hash_node_delete K V)) (malloc_ok : Bool)
    (calls : List (Call K V)) (log : List (Node K V))
    (hcreate : ht_create txt descriptor size_table hash_address hash_compare
      hash_node_delete malloc_ok = some (HASH_SUCCESS, created))
    (hcalls : apply_calls created calls = some (t, log)) :
    t.size = size_table ∧ 1 ≤ t.size ∧ bucket_count t = some t.size ∧
    t.size = created.size ∧ bucket_count t = bucket_count created ∧
    t.hash_address = created.hash_address ∧ t.hash_compare = created.hash_compare ∧
    t.hash_node_delete = created.hash_node_delete ∧
    t.hash_address = bound_policy hash_address (default_hash_addr txt) ∧
    t.hash_compare = bound_policy hash_compare (default_compare txt) ∧
    t.hash_node_delete = bound_policy hash_node_delete default_delete_node := by
  obtain ⟨h1, _, _, hc⟩ := (ht_create_success_iff txt descriptor created size_table
    hash_address hash_compare hash_node_delete malloc_ok).1 hcreate
  obtain ⟨a1, a2, a3, a4, a5⟩ := apply_calls_frame calls created t log hcalls
  subst hc
  refine ⟨a1, by rw [a1]; exact h1, ?_, a1, a5, a2, a3, a4, ?_, ?_, ?_⟩
  · rw [a5, a1]
    simp [bucket_count]
  · rw [a2]
    cases hash_address <;> rfl
  · rw [a3]
    cases hash_compare <;> rfl
  · rw [a4]
    cases hash_node_delete <;> rfl

theorem sample_insert_duplicate :
    ht_insert sample_two (some key_hg456h) (some data_ii) true true
      = some (HASH_KEY_ALREADY_ENTERED, sample_two) := by
  have ha : sample_two.hash_address sample_two.size (some key_hg456h) = 17 :=
    sample_address_hg456h
  unfold ht_insert
  simp only [ha]
  simp [sample_two, sample, insert_loop, default_compare_refl]

/-- Witness of C17: the sample table after two insertions, a rejected duplicate insertion,
a lookup and a deletion. -/
theorem size_and_policies_immutable_witness :
    ht_create id sample_empty 23 none none none true = some (HASH_SUCCESS, sample_empty) ∧
    apply_calls sample_empty
      [Call.insert (some key_hg456h) (some data_hh) true true,
       Call.insert (some key_7dfgsd89) (some data_ee77777) true true,
       Call.insert (some key_hg456h) (some data_ii) true true,
       Call.get_node (some key_7dfgsd89),
       Call.delete_entry (some key_hg456h)]
      = some (sample_two_deleted, [{ key := some key_hg456h, data := some data_hh }]) ∧
    sample_two_deleted.size = 23 ∧ bucket_count sample_two_deleted = some 23 ∧
    sample_two_deleted.hash_address = default_hash_addr id ∧
    sample_two_deleted.hash_compare = default_compare id ∧
    sample_two_deleted.hash_node_delete = default_delete_node :=
  have hget : ht_get_node sample_two (some key_7dfgsd89)
      = some (some { key := some key_7dfgsd89, data := some data_ee77777 }) := by decide
  have hcalls : apply_calls sample_empty
      [Call.insert (some key_hg456h) (some data_hh) true true,
       Call.insert (some key_7dfgsd89) (some data_ee77777) true true,
       Call.insert (some key_hg456h) (some data_ii) true true,
       Call.get_node (some key_7dfgsd89),
       Call.delete_entry (some key_hg456h)]
      = some (sample_two_deleted, [{ key := some key_hg456h, data := some data_hh }]) := by
    simp only [apply_calls, apply_call, sample_insert_hg456h, sample_insert_7dfgsd89,
      sample_insert_duplicate, hget, sample_delete_hg456h, Option.map_some',
      List.nil_append, List.append_nil]
  have h := size_and_policies_immutable id sample_empty sample_empty sample_two_deleted 23
    none none none true _ _ (sample_create sample_empty) hcalls
  ⟨sample_create sample_empty, hcalls, h.1, h.2.2.1, h.2.2.2.2.2.2.2.2.1,
    h.2.2.2.2.2.2.2.2.2.1, h.2.2.2.2.2.2.2.2.2.2⟩

/-! ## C18: the calls of the cleanup policy -/

theorem reachable_size_le (t : HashTable K V) (h : Reachable t) : t.size ≤ INT_MAX := by
  obtain ⟨txt, descriptor, size_table, ha, hc, hd, ok, created, ops, hcreate, hops⟩ := h
  have h0 := inv_ht_create txt descriptor created size_table ha hc hd ok hcreate
  have h1 := inv_apply_ops ops created t h0.1 hops
  obtain ⟨_, h2, _, hcr⟩ := (ht_create_success_iff txt descriptor created size_table
    ha hc hd ok).1 hcreate
  rw [h1.2, hcr]
  exact h2

/-- C18: on a table reached from a successful `ht_create`, `ht_delete` hands to
`hash_node_delete` the live entries of the table, each once and no other node, bucket
after bucket in index order and each chain from head to tail; `ht_delete_entry` hands it
the matched entry, once, when it returns `HASH_ENTRY_DELETED` and nothing when it returns
`HASH_ENTRY_NOT_FOUND`; `ht_insert` and `ht_get_node` hand it nothing. -/
theorem cleanup_calls (t : HashTable K V) (hreach : Reachable t) :
    (∃ table, t.table = some table ∧ table.length = t.size ∧
      ht_delete t = some table.flatten ∧ entries t = table.flatten) ∧
    (∀ k r t' log, ht_delete_entry t k = some (r, t', log) →
      (r = HASH_ENTRY_DELETED →
        ∃ found, ht_get_node t k = some (some found) ∧ log = [found]) ∧
      (r = HASH_ENTRY_NOT_FOUND → log = [])) ∧
    (∀ k v node_ok link_ok t' log,
      apply_call t (Call.insert k v node_ok link_ok) = some (t', log) → log = []) ∧
    (∀ k t' log, apply_call t (Call.get_node k) = some (t', log) → log = [] ∧ t' = t) := by
  obtain ⟨⟨table, ht, hlen, _⟩, _⟩ := inv_of_reachable t hreach
  have hmax := reachable_size_le t hreach
  refine ⟨⟨table, ht, hlen, ?_, by simp [entries, ht]⟩, ?_, ?_, ?_⟩
  · unfold ht_delete
    simp only [ht, hlen, Nat.lt_irrefl, if_false, Nat.not_lt.2 hmax]
    rw [← hlen, List.take_length]
  · intro k r t' log h
    obtain ⟨table1, chain, ht1, hc⟩ := ht_delete_entry_defined t t' k r log h
    have hget : ht_get_node t k = some (get_node_loop t.hash_compare k chain) := by
      rw [ht_get_node_eq]
      simp only [bucket, ht1, hc, Option.map_some']
    rw [ht_delete_entry_eq t k table1 chain ht1 hc] at h
    cases hg : get_node_loop t.hash_compare k chain with
    | none =>
      simp only [hg, Option.some.injEq, Prod.mk.injEq] at h
      refine ⟨fun hr => ?_, fun _ => h.2.2.symm⟩
      rw [← h.1] at hr
      exact absurd hr (by decide)
    | some found =>
      simp only [hg, Option.some.injEq, Prod.mk.injEq] at h
      refine ⟨fun _ => ⟨found, by rw [hget, hg], h.2.2.symm⟩, fun hr => ?_⟩
      rw [← h.1] at hr
      exact absurd hr (by decide)
  · intro k v node_ok link_ok t' log h
    simp only [apply_call, Option.map_eq_some', Prod.mk.injEq] at h
    obtain ⟨_, _, _, hl⟩ := h
    exact hl.symm
  · intro k t' log h
    simp only [apply_call, Option.map_eq_some', Prod.mk.injEq] at h
    obtain ⟨_, _, ht', hl⟩ := h
    exact ⟨hl.symm, ht'.symm⟩

/-- Witness of C18: the teardown of the sample table that holds "hg456h" (bucket 17) and
"7dfgsd89" (bucket 12). -/
theorem cleanup_calls_witness :
    Reachable sample_two ∧
    ht_delete sample_two = some [{ key := some key_7dfgsd89, data := some data_ee77777 },
      { key := some key_hg456h, data := some data_hh }] ∧
    ∃ table, sample_two.table = some table ∧ table.length = sample_two.size ∧
      ht_delete sample_two = some table.flatten ∧ entries sample_two = table.flatten :=
  ⟨sample_two_reachable, by decide, (cleanup_calls sample_two sample_two_reachable).1⟩

/-! ## C19: every entry sits in the bucket of its address -/

theorem placed_set (t : HashTable K V) (table : List (HashmapNode K V)) (a : Nat)
    (chain : HashmapNode K V) (hp : Placed t) (ht : t.table = some table)
    (hchain : ∀ n ∈ chain, t.hash_address t.size n.key = a) :
    Placed { t with table := some (table.set a chain) } := by
  intro table' ht' i c hi n hn
  simp only [Option.some.injEq] at ht'
  subst ht'
  rw [List.getElem?_set] at hi
  by_cases hai : a = i
  · subst hai
    by_cases hlt : a < table.length
    · simp only [if_true, hlt, Option.some.injEq] at hi
      subst hi
      exact hchain n hn
    · simp [hlt] at hi
  · rw [if_neg hai] at hi
    exact hp table ht i c hi n hn

theorem placed_ht_insert (t t' : HashTable K V) (key : Ptr K) (data : Ptr V)
    (node_ok link_ok : Bool) (r : Int) (hp : Placed t)
    (h : ht_insert t key data node_ok link_ok = some (r, t')) : Placed t' := by
  obtain ⟨table, chain, ht, hc⟩ := ht_insert_defined t t' key data node_ok link_ok r h
  rw [ht_insert_eq t key data node_ok link_ok table chain ht hc] at h
  by_cases hl : insert_loop t.hash_compare key chain = true
  · simp only [hl, if_true, Option.some.injEq, Prod.mk.injEq] at h
    rw [← h.2]
    exact hp
  · rw [if_neg hl] at h
    cases hn : ht_new_entry key data node_ok link_ok with
    | none =>
      simp only [hn, Option.some.injEq, Prod.mk.injEq] at h
      rw [← h.2]
      exact hp
    | some new_node =>
      obtain ⟨_, _, _, _, h5⟩ :=
        (ht_new_entry_eq_some key data node_ok link_ok new_node).1 hn
      simp only [hn, Option.some.injEq, Prod.mk.injEq] at h
      rw [← h.2]
      refine placed_set t table _ _ hp ht ?_
      intro n hn'
      subst h5
      rcases List.mem_append.1 hn' with hn' | hn'
      · exact hp table ht _ chain hc n hn'
      · rw [List.mem_singleton] at hn'
        subst hn'
        rfl

theorem placed_ht_delete_entry (t t' : HashTable K V) (key : Ptr K) (r : Int)
    (log : List (Node K V)) (hp : Placed t)
    (h : ht_delete_entry t key = some (r, t', log)) : Placed t' := by
  obtain ⟨table, chain, ht, hc⟩ := ht_delete_entry_defined t t' key r log h
  rw [ht_delete_entry_eq t key table chain ht hc] at h
  cases hg : get_node_loop t.hash_compare key chain with
  | none =>
    simp only [hg, Option.some.injEq, Prod.mk.injEq] at h
    rw [← h.2.1]
    exact hp
  | some found =>
    simp only [hg, Option.some.injEq, Prod.mk.injEq] at h
    rw [← h.2.1]
    exact placed_set t table _ _ hp ht
      (fun n hn => hp table ht _ chain hc n (List.mem_of_mem_eraseP hn))

/-- C19: on every table reached from a successful `ht_create` by `ht_insert` and
`ht_delete_entry` calls, every live entry stored in the chain of bucket `i` has
`hash_address(table, entry_key) = i`; and `ht_insert` and `ht_delete_entry` each preserve
this predicate, whatever they return. -/
theorem bucket_placement (t : HashTable K V) :
    (Reachable t →
      ∃ table, t.table = some table ∧ table.length = t.size ∧
        ∀ i chain, table[i]? = some chain →
          ∀ n ∈ chain, t.hash_address t.size n.key = i) ∧
    (Reachable t → Placed t) ∧
    (Placed t → ∀ k v node_ok link_ok r t',
      ht_insert t k v node_ok link_ok = some (r, t') → Placed t') ∧
    (Placed t → ∀ k r t' log,
      ht_delete_entry t k = some (r, t', log) → Placed t') := by
  refine ⟨?_, ?_, ?_, ?_⟩
  · intro hreach
    obtain ⟨⟨table, ht, hlen, hall⟩, _⟩ := inv_of_reachable t hreach
    exact ⟨table, ht, hlen, fun i chain hi => (hall i chain hi).2⟩
  · intro hreach
    obtain ⟨⟨table, ht, _, hall⟩, _⟩ := inv_of_reachable t hreach
    intro table' ht' i chain hi
    rw [ht] at ht'
    simp only [Option.some.injEq] at ht'
    subst ht'
    exact (hall i chain hi).2
  · intro hp k v node_ok link_ok r t' h
    exact placed_ht_insert t t' k v node_ok link_ok r hp h
  · intro hp k r t' log h
    exact placed_ht_delete_entry t t' k r log hp h

/-- Witness of C19: the sample table that holds "hg456h" and "7dfgsd89", and the table its
third insertion yields. -/
theorem bucket_placement_witness :
    Reachable sample_two ∧ Placed sample_two ∧
    ht_insert sample_two (some key_i46fh5LL) (some data_ii) true true
      = some (HASH_SUCCESS, sample_three) ∧
    Placed sample_three :=
  have h := bucket_placement sample_two
  have hp : Placed sample_two := h.2.1 sample_two_reachable
  ⟨sample_two_reachable, hp, sample_insert_i46fh5LL,
    h.2.2.1 hp _ _ _ _ _ _ sample_insert_i46fh5LL⟩

/-! ## C20: an insertion followed by the deletion of the same key -/

theorem set_set_back (table : List (HashmapNode K V)) (a : Nat)
    (chain other : HashmapNode K V) (hc : table[a]? = some chain) :
    (table.set a other).set a chain = table := by
  rw [List.set_set]
  induction table generalizing a with
  | nil => rfl
  | cons c rest ih =>
    cases a with
    | zero =>
      simp only [List.getElem?_cons_zero, Option.some.injEq] at hc
      subst hc
      rfl
    | succ a =>
      simp only [List.getElem?_cons_succ] at hc
      simp only [List.set_cons_succ, ih a hc]

/-- C20: when `ht_get_node(table, k)` is `NULL`, the comparator reports `k` equal to itself,
and `ht_insert(table, k, v)` returns `HASH_SUCCESS`, the `ht_delete_entry(table, k)` that
follows returns `HASH_ENTRY_DELETED`, hands the new entry `(k, v)` to the cleanup policy,
and leaves the table, hence every bucket chain, as it was before the insertion. -/
theorem insert_then_delete_identity (t t1 : HashTable K V) (k : Ptr K) (v : Ptr V)
    (node_ok link_ok : Bool)
    (habsent : ht_get_node t k = some none)
    (hrefl : t.hash_compare k k = 0)
    (hins : ht_insert t k v node_ok link_ok = some (HASH_SUCCESS, t1)) :
    ht_delete_entry t1 k = some (HASH_ENTRY_DELETED, t, [{ key := k, data := v }]) ∧
    k ≠ none ∧ v ≠ none := by
  obtain ⟨table, chain, ht, hc, hno, hk, hv, _, _, rfl⟩ :=
    ht_insert_success t t1 k v node_ok link_ok hins
  have hlt : t.hash_address t.size k < table.length := by
    by_contra hge
    rw [List.getElem?_eq_none (Nat.le_of_not_lt hge)] at hc
    cases hc
  refine ⟨?_, hk, hv⟩
  rw [ht_delete_entry_eq
    { t with table := some (table.set (t.hash_address t.size k)
      (chain ++ [{ key := k, data := v }])) } k
    (table.set (t.hash_address t.size k) (chain ++ [{ key := k, data := v }]))
    (chain ++ [{ key := k, data := v }]) rfl (List.getElem?_set_self hlt)]
  have hg : get_node_loop t.hash_compare k (chain ++ [{ key := k, data := v }])
      = some { key := k, data := v } := by
    rw [get_node_loop_append _ _ _ _ hno]
    simp [get_node_loop, hrefl]
  simp only [hg]
  rw [eraseP_first_match _ _ _ _ _ hno hrefl, List.append_nil, set_set_back _ _ _ _ hc]
  cases t
  simp only at ht
  subst ht
  rfl

/-- Witness of C20: "i46fh5LL" is inserted into the sample table that holds "hg456h" and
"7dfgsd89", then deleted. -/
theorem insert_then_delete_identity_witness :
    ht_get_node sample_two (some key_i46fh5LL) = some none ∧
    sample_two.hash_compare (some key_i46fh5LL) (some key_i46fh5LL) = 0 ∧
    ht_insert sample_two (some key_i46fh5LL) (some data_ii) true true
      = some (HASH_SUCCESS, sample_three) ∧
    ht_delete_entry sample_three (some key_i46fh5LL)
      = some (HASH_ENTRY_DELETED, sample_two,
          [{ key := some key_i46fh5LL, data := some data_ii }]) :=
  have habsent : ht_get_node sample_two (some key_i46fh5LL) = some none := by decide
  have hrefl : sample_two.hash_compare (some key_i46fh5LL) (some key_i46fh5LL) = 0 :=
    default_compare_refl id _
  ⟨habsent, hrefl, sample_insert_i46fh5LL,
    (insert_then_delete_identity sample_two sample_three (some key_i46fh5LL) (some data_ii)
      true true habsent hrefl sample_insert_i46fh5LL).1⟩

end Hash
